import Mathlib

/-
Shallow embedding of src/www/data/map2slim.py (yeastgenome/GoToolsDocker)
and proofs about it.

Modelling conventions:
 * Python dicts are association lists (`List (String × _)`); `dict.get` is a
   first-match lookup.
 * Python sets of strings are `Finset String`; Python deques are `List`s
   (popleft = head, append = snoc).
 * The worklist loops of the source terminate because each node is enqueued
   at most once; here they take an explicit fuel argument that is chosen
   larger than the number of possible pops, so the Lean functions compute
   the same results.
 * Python string methods and the two regular expressions of the script are
   modelled over ASCII characters, which is all the script's GO-identifier
   data ever contains.
-/

namespace MapTwoSlim

/-- A parent adjacency map (the dict built by `build_parent_map`):
term id to list of parent ids. -/
abbrev PMap := List (String × List String)

/-- `parents.get(x, ())`: the parent list of `x`, or `[]` when the key is
absent (also the behaviour of the fallback loop's `parents.get(x, (""))`,
since iterating the empty-string default yields nothing). -/
def pget (pm : PMap) (x : String) : List String :=
  match pm.find? (fun kv => kv.1 == x) with
  | some kv => kv.2
  | none => []

/-- Total size of a parent map (keys plus value occurrences); used to bound
the worklist loops, each of which enqueues every node at most once. -/
def pmSize (pm : PMap) : Nat :=
  pm.foldr (fun kv n => 1 + kv.2.length + n) 0

/-- All key and value occurrences of a parent map: the universe of nodes the
upward walks can ever enqueue. -/
def pmSupport (pm : PMap) : List String :=
  pm.foldr (fun kv acc => kv.1 :: (kv.2 ++ acc)) []

/-- One upward step over the parent map: `b` is a recorded parent of `a`. -/
def PStep (pm : PMap) (a b : String) : Prop := b ∈ pget pm a

/-- `b` is a transitive upward ancestor of `a`: one or more parent steps. -/
def Reaches (pm : PMap) (a b : String) : Prop := Relation.TransGen (PStep pm) a b

/-- Worklist state of the two plain upward walks: visited set, queue,
accumulated ancestor set. -/
abbrev WalkSt := Finset String × List String × Finset String

/-- Handling of one parent in the pruning closure (map2slim.py lines
276-279): an unseen parent joins the visited set, the ancestor accumulator
and the queue. -/
def upStep (st : WalkSt) (p : String) : WalkSt :=
  if p ∈ st.1 then st else (insert p st.1, st.2.1 ++ [p], insert p st.2.2)

/-- Processing of the parents of one dequeued node in the pruning closure
(map2slim.py lines 275-279). -/
def upPop (pm : PMap) (y : String) (st : WalkSt) : WalkSt :=
  (pget pm y).foldl upStep st

/-- The loop of the upward-closure BFS used for redundancy pruning
(map2slim.py lines 270-280). -/
def upLoop (pm : PMap) : Nat → Finset String → List String → Finset String → Finset String
  | 0, _, _, anc => anc
  | _ + 1, _, [], anc => anc
  | fuel + 1, visited, y :: rest, anc =>
    let st := upPop pm y (visited, rest, anc)
    upLoop pm fuel st.1 st.2.1 st.2.2

/-- `up[d0]` of the pruning phase: all proper upward ancestors of `x`. -/
def upClosureFrom (pm : PMap) (x : String) : Finset String :=
  upLoop pm (pmSize pm + 1) {x} [x] ∅

/-- The state of the bounded BFS of `nearest_slim_ancestors`. -/
structure BfsSt where
  visited : Finset String
  q : List (String × Nat)
  best : Option Nat
  cand : Finset String
  allA : Finset String

/-- Handling of one parent `p` of the dequeued node at depth `d`
(map2slim.py lines 244-257): slim parents are recorded (updating the best
depth and the candidate set) but not enqueued; other parents are enqueued. -/
def stepParent (slim : Finset String) (d : Nat) (st : BfsSt) (p : String) : BfsSt :=
  if p ∈ st.visited then st
  else
    let st1 : BfsSt := { st with visited := insert p st.visited }
    if p ∈ slim then
      let st2 : BfsSt := { st1 with allA := insert p st1.allA }
      match st2.best with
      | none => { st2 with best := some (d + 1), cand := {p} }
      | some b =>
        if d + 1 < b then { st2 with best := some (d + 1), cand := {p} }
        else if d + 1 = b then { st2 with cand := insert p st2.cand }
        else st2
    else { st1 with q := st1.q ++ [(p, d + 1)] }

/-- Processing of all parents of the dequeued node (the `for p in
parents.get(node, ())` loop). -/
def bfsPop (slim : Finset String) (pm : PMap) (node : String) (d : Nat) (st : BfsSt) : BfsSt :=
  (pget pm node).foldl (stepParent slim d) st

/-- The early-break test after the parent loop (map2slim.py line 261):
`best_depth is not None and q and q[0][1] > best_depth`. -/
def bfsStop (st : BfsSt) : Bool :=
  match st.best, st.q with
  | some b, (_, d1) :: _ => b < d1
  | _, _ => false

/-- The bounded upward BFS (`while q:` loop, map2slim.py lines 242-261),
with the early break once the head of the queue is deeper than the best
depth found so far. -/
def bfsRun (slim : Finset String) (pm : PMap) : Nat → BfsSt → BfsSt
  | 0, st => st
  | fuel + 1, st =>
    match st.q with
    | [] => st
    | (node, d) :: rest =>
      let st1 := bfsPop slim pm node d { st with q := rest }
      if bfsStop st1 then st1 else bfsRun slim pm fuel st1

/-- Fuel bound for the bounded BFS: every pop consumes a queue entry and each
node is enqueued at most once. -/
def nsaFuel (pm : PMap) : Nat := pmSize pm + 2

/-- Initial BFS state: `visited = {start}`, `q = deque([(start, 0)])`. -/
def nsaInit (start : String) : BfsSt :=
  ⟨{start}, [(start, 0)], none, ∅, ∅⟩

/-- The bounded BFS of `nearest_slim_ancestors` run to completion; its `cand`
field is the set of minimal-depth slim candidates, its `allA` field the slim
ancestors recorded during the walk. -/
def nsaBfs (start : String) (slim : Finset String) (pm : PMap) : BfsSt :=
  bfsRun slim pm (nsaFuel pm) (nsaInit start)

/-- Redundancy pruning (map2slim.py lines 281-289): a candidate `a` is kept
unless it is a proper upward ancestor of another candidate `b`. -/
def pruneKeep (pm : PMap) (direct : Finset String) : Finset String :=
  direct.filter (fun a => ¬ ∃ b ∈ direct, ¬ b = a ∧ a ∈ upClosureFrom pm b)

/-- Handling of one parent in the fallback walk (map2slim.py lines 301-306):
every unseen parent is enqueued, and recorded when it belongs to the slim
set. -/
def fbStep (slim : Finset String) (st : WalkSt) (p : String) : WalkSt :=
  if p ∈ st.1 then st
  else (insert p st.1, st.2.1 ++ [p], if p ∈ slim then insert p st.2.2 else st.2.2)

/-- Processing of the parents of one dequeued node in the fallback walk
(map2slim.py lines 300-306). -/
def fbPop (pm : PMap) (slim : Finset String) (x : String) (st : WalkSt) : WalkSt :=
  (pget pm x).foldl (fbStep slim) st

/-- The full upward walk run only when the bounded BFS recorded no slim
ancestor (map2slim.py lines 294-306); collects every slim node reachable
upward, continuing through slim nodes. -/
def fbLoop (pm : PMap) (slim : Finset String) :
    Nat → Finset String → List String → Finset String → Finset String
  | 0, _, _, acc => acc
  | _ + 1, _, [], acc => acc
  | fuel + 1, visited, x :: rest, acc =>
    let st := fbPop pm slim x (visited, rest, acc)
    fbLoop pm slim fuel st.1 st.2.1 st.2.2

/-- Wrapper for the fallback walk, started from `start` with empty result. -/
def fbRun (pm : PMap) (slim : Finset String) (start : String) : Finset String :=
  fbLoop pm slim (pmSize pm + 1) {start} [start] ∅

/-- `nearest_slim_ancestors(start, slim, parents, namespace_of, aspect_ns)`
(map2slim.py lines 222-308).  The `namespace_of` and `aspect_ns` arguments
are accepted but never influence the result: in the source the only use of
`namespace_of.get(p)` guards a `pass` statement. -/
def nearest_slim_ancestors (start : String) (slim : Finset String) (pm : PMap)
    (namespace_of : List (String × String)) (aspect_ns : String) :
    Finset String × Finset String :=
  if start ∈ slim then ({start}, {start})
  else
    let st := nsaBfs start slim pm
    let direct := if 1 < st.cand.card then pruneKeep pm st.cand else st.cand
    let allAnc := if st.allA = ∅ then fbRun pm slim start else st.allA
    (direct, allAnc)

/-- Modelled from the spec: "All slim ancestors: complete set of slim terms
reachable upward at any depth" — the result of a single full upward closure
per query, restricted to the slim set.  Refinement target for claim C1. -/
def specAllSlimAncestors (start : String) (slim : Finset String) (pm : PMap) : Finset String :=
  (upClosureFrom pm start).filter (fun s => s ∈ slim)

/-- A GO term record (`GOTerm` dataclass fields used by the slim pipeline). -/
structure GOTerm where
  id : String
  name : String := ""
  nspace : String := ""
  is_obsolete : Bool := false

/-- The term graph: the dict `terms` of `parse_obo`, id to term record. -/
abbrev Terms := List (String × GOTerm)

/-- `terms.get(k)`. -/
def tget (terms : Terms) (k : String) : Option GOTerm :=
  (terms.find? (fun kv => kv.1 == k)).map (fun kv => kv.2)

/-- `alt2primary.get(k)` on the alt-id map. -/
def aget (m : List (String × String)) (k : String) : Option String :=
  (m.find? (fun kv => kv.1 == k)).map (fun kv => kv.2)

/-- ASCII decimal digit, the `\d` of the script's regular expressions. -/
def isDig (c : Char) : Bool := '0' ≤ c && c ≤ '9'

/-- The whitespace stripped by Python's `str.strip` (ASCII range). -/
def isPySpace (c : Char) : Bool :=
  c == ' ' || c == '\t' || c == '\n' || c == '\r' || c == '\x0b' || c == '\x0c'

/-- Python `str.strip()` over the characters of a string. -/
def stripChars (l : List Char) : List Char :=
  ((l.dropWhile isPySpace).reverse.dropWhile isPySpace).reverse

/-- Python `str.strip()`. -/
def pyStrip (s : String) : String := String.mk (stripChars s.toList)

/-- The characters before the first occurrence of `sep` (the whole list when
`sep` does not occur): component 0 of Python `str.split(sep)`. -/
def beforeFirst (sep : List Char) : List Char → List Char
  | [] => []
  | c :: t => if sep.isPrefixOf (c :: t) then [] else c :: beforeFirst sep t

/-- The characters after the first occurrence of `sep`, when it occurs. -/
def afterFirst (sep : List Char) : List Char → Option (List Char)
  | [] => none
  | c :: t =>
    if sep.isPrefixOf (c :: t) then some ((c :: t).drop sep.length)
    else afterFirst sep t

/-- Component 1 of Python `str.split(sep)` for nonempty `sep`: the text
between the first and second occurrences of `sep`; `none` when `sep` does
not occur (indexing `[1]` then raises an `IndexError`). -/
def splitIdx1 (sep : List Char) (l : List Char) : Option (List Char) :=
  (afterFirst sep l).map (beforeFirst sep)

/-- Python `str.split(sep)` for a single-character separator (keeps empty
fields), used for the tab-separated association columns. -/
def splitChar (sep : Char) : List Char → List (List Char)
  | [] => [[]]
  | c :: t =>
    match splitChar sep t with
    | [] => [[]]
    | h :: r => if c == sep then [] :: h :: r else (c :: h) :: r

/-- Python `str.isdigit` on the ASCII data of the script: nonempty, all digits. -/
def pyIsDigit (s : String) : Bool := !(s == "") && s.toList.all isDig

/-- Python `str.upper` on ASCII data. -/
def pyUpper (s : String) : String := String.mk (s.toList.map Char.toUpper)

/-- Python `str.lower` on ASCII data. -/
def pyLower (s : String) : String := String.mk (s.toList.map Char.toLower)

/-- Python `str.zfill(7)`: left-pad with zeros to width 7. -/
def zfill7 (s : String) : String :=
  if s.length < 7 then String.mk (List.replicate (7 - s.length) '0') ++ s else s

/-- Match of the alternative `GO:\d{7}` (with `re.IGNORECASE`) at the head of
the character list; returns the matched characters. -/
def matchGO7 : List Char → Option (List Char)
  | g :: o :: c :: rest =>
    if (g == 'G' || g == 'g') && (o == 'O' || o == 'o') && c == ':' then
      let ds := rest.take 7
      if ds.length == 7 && ds.all isDig then some (g :: o :: c :: ds) else none
    else none
  | _ => none

/-- Match of the alternative `\d{1,7}` (greedy) at the head of the character
list. -/
def matchDigits (l : List Char) : Option (List Char) :=
  match l with
  | c :: _ => if isDig c then some ((l.takeWhile isDig).take 7) else none
  | [] => none

/-- `re.search(r"(GO:\d{7}|\d{1,7})", line, re.IGNORECASE)`: leftmost match,
first alternative preferred at each position. -/
def reSearch : List Char → Option (List Char)
  | [] => none
  | l@(_ :: t) =>
    match matchGO7 l with
    | some m => some m
    | none =>
      match matchDigits l with
      | some m => some m
      | none => reSearch t

/-- `re.search(r"(GO:\d{7})", s, re.IGNORECASE)`: leftmost match. -/
def reSearchGO7 : List Char → Option (List Char)
  | [] => none
  | l@(_ :: t) =>
    match matchGO7 l with
    | some m => some m
    | none => reSearchGO7 t

/-- Resolution of an extracted slim token (map2slim.py lines 180-186):
uppercase, map alt ids to the primary id, keep only ids present and
non-obsolete in the term graph. -/
def resolveSlimId (a2p : List (String × String)) (terms : Terms) (gid : String) : Option String :=
  let gid1 := pyUpper gid
  let gid2 := match aget a2p gid1 with
    | some primary => primary
    | none => gid1
  match tget terms gid2 with
  | none => none
  | some t => if t.is_obsolete then none else some gid2

/-- Processing of one line of a flat (id-list) slim file by `load_slim_any`
(map2slim.py lines 168-186).  `Except.error ()` models a raised exception
(the `IndexError` of `gid.split("GO:")[1]` when the matched prefix is not
exactly uppercase "GO:"), `Except.ok none` a skipped line, and
`Except.ok (some gid)` an id added to the slim set. -/
def processSlimLine (a2p : List (String × String)) (terms : Terms) (raw : String) :
    Except Unit (Option String) :=
  let line := stripChars (beforeFirst ['#'] raw.toList)
  if line = [] then Except.ok none
  else
    match reSearch line with
    | none => Except.ok none
    | some m =>
      let gid := String.mk m
      if pyIsDigit gid then
        Except.ok (resolveSlimId a2p terms ("GO:" ++ zfill7 gid))
      else
        match splitIdx1 ("GO:".toList) m with
        | none => Except.error ()
        | some tail => Except.ok (resolveSlimId a2p terms ("GO:" ++ zfill7 (String.mk tail)))

/-- The flat-list branch of `load_slim_any` over the lines of the file; a
raised exception aborts the load. -/
def load_slim_list (a2p : List (String × String)) (terms : Terms) (lines : List String) :
    Except Unit (Finset String) :=
  lines.foldlM
    (fun slim raw => (processSlimLine a2p terms raw).map
      (fun r => match r with | none => slim | some gid => insert gid slim))
    ∅

/-- `normalize_go_id` (map2slim.py lines 191-202); unlike the slim-list
loader it uppercases the match before splitting on "GO:", so the split
always succeeds. -/
def normalize_go_id (s : String) : Option String :=
  let s1 := stripChars s.toList
  if s1 = [] then none
  else
    match reSearchGO7 s1 with
    | some m =>
      let go := m.map Char.toUpper
      some ("GO:" ++ zfill7 (String.mk ((splitIdx1 ("GO:".toList) go).getD [])))
    | none =>
      if pyIsDigit (String.mk s1) && decide (s1.length ≤ 7) then
        some ("GO:" ++ zfill7 (String.mk s1))
      else none

/-! ### Association processing (`process_assocs`) -/

/-- `is_comment` (map2slim.py lines 315-316). -/
def is_comment (line : String) : Bool :=
  "!".isPrefixOf line || pyStrip line == ""

/-- `cols[i] if len(cols) > i else ""`. -/
def colD (cols : List String) (i : Nat) : String := cols.getD i ""

/-- The options of one `process_assocs` run. -/
structure AssocCfg where
  aspect : Option String
  gff : Bool
  count_mode : Bool
  tab : Bool

/-- Python truthiness of the optional aspect string (`if aspect`). -/
def aspectTruthy : Option String → Bool
  | none => false
  | some a => !(a == "")

/-- `ASPECT_NS` (map2slim.py line 136). -/
def ASPECT_NS (a : String) : Option String :=
  if a == "F" then some "molecular_function"
  else if a == "P" then some "biological_process"
  else if a == "C" then some "cellular_component"
  else none

/-- `namespace_of.get(k, "")` for the namespace dict of map2slim.py line 388. -/
def nsOf (terms : Terms) (k : String) : String :=
  match tget terms k with
  | some t => t.nspace
  | none => ""

/-- The running state of `process_assocs`: the two aggregate counters
(slim id to distinct product set), the duplicate-suppression set, and the
emitted map-mode rows. -/
structure AssocState where
  leafh : String → Finset String
  allh : String → Finset String
  seen : Finset (List String)
  out : List String

/-- The state at the start of the streaming phase. -/
def initAssocState : AssocState := ⟨fun _ => ∅, fun _ => ∅, ∅, []⟩

/-- `"\t".join(cols)`. -/
def joinTab (cols : List String) : String := String.intercalate "\t" cols

/-- Field extraction for one data row (map2slim.py lines 417-441): returns
`(acc, prod, is_not)`, or `none` when a GFF row's type is neither
`SO:`-prefixed nor a known term name. -/
def extractRow (terms : Terms) (gff : Bool) (cols : List String) :
    Option (String × String × String) :=
  if gff then
    let type_val := colD cols 2
    let prod := colD cols 8
    if type_val.startsWith "SO:" then some (type_val, prod, "")
    else
      match terms.find? (fun kv => kv.2.name == type_val) with
      | some kv => some (kv.1, prod, "")
      | none => none
  else
    some (colD cols 4, colD cols 1, colD cols 3)

/-- Emission of one mapped row (map2slim.py lines 478-485 and 487-494): the
term column (2 in GFF mode, 4 otherwise) is replaced by the slim id `s`, and
the row is printed unless an identical row was already printed. -/
def emitStep (gff : Bool) (cols : List String) (st : AssocState) (s : String) : AssocState :=
  let new_cols := cols.set (if gff then 2 else 4) s
  if new_cols ∈ st.seen then st
  else { st with seen := insert new_cols st.seen, out := st.out ++ [joinTab new_cols] }

/-- Row emission in map mode: one output line per direct slim id, iterated
in sorted order (`for s in sorted(direct)`). -/
def emitRows (gff : Bool) (cols : List String) (direct : Finset String)
    (st : AssocState) : AssocState :=
  (direct.sort (· ≤ ·)).foldl (emitStep gff cols) st

/-- The counter updates of map2slim.py lines 470-473: the product id joins
the leaf set of every direct slim id and the all set of every slim
ancestor. -/
def updateCounters (da : Finset String × Finset String) (prod : String)
    (st : AssocState) : AssocState :=
  { st with
    leafh := fun k => if k ∈ da.1 then insert prod (st.leafh k) else st.leafh k,
    allh := fun k => if k ∈ da.2 then insert prod (st.allh k) else st.allh k }

/-- The `aspect_ns` argument computed at map2slim.py line 463 (consumed by
no code path of the resolver). -/
def aspectNsFor (terms : Terms) (cfg : AssocCfg) (accN : String) : String :=
  if aspectTruthy cfg.aspect then (ASPECT_NS (cfg.aspect.getD "")).getD (nsOf terms accN)
  else nsOf terms accN

/-- Handling of one resolver result (map2slim.py lines 465-494): rows with
no path to the slim are dropped; otherwise the counters are updated and, in
map mode, rows are emitted. -/
def processResolved (gff count_mode : Bool) (cols : List String) (prod : String)
    (da : Finset String × Finset String) (st : AssocState) : AssocState :=
  if da.1 = ∅ ∧ da.2 = ∅ then st
  else if count_mode then updateCounters da prod st
  else emitRows gff cols da.1 (updateCounters da prod st)

/-- The tail of the per-row pipeline after the NOT and aspect filters
(map2slim.py lines 453-494): term normalization, graph lookup, obsolete
check, resolver call, counter updates and map-mode emission.  (The index
assignment `new_cols[4] = s` cannot go out of range on rows that reach
emission: a row lacking its term column yields an empty `acc` that is
dropped at normalization.) -/
def processRest (terms : Terms) (slim : Finset String) (pm : PMap) (cfg : AssocCfg)
    (cols : List String) (acc prod : String) (st : AssocState) : AssocState :=
  match normalize_go_id acc with
  | none => st
  | some accN =>
    match tget terms accN with
    | none => st
    | some t =>
      if t.is_obsolete then st
      else processResolved cfg.gff cfg.count_mode cols prod
        (nearest_slim_ancestors accN slim pm (terms.map (fun kv => (kv.1, kv.2.nspace)))
          (aspectNsFor terms cfg accN)) st

/-- The tab-separated columns of a line (`parse_assoc_line`, map2slim.py
lines 319-323, on a non-comment line). -/
def rowCols (line : String) : List String :=
  (splitChar '\t' line.toList).map String.mk

/-- Processing of one input line of the association file by
`process_assocs` (map2slim.py lines 408-494). -/
def processLine (terms : Terms) (slim : Finset String) (pm : PMap) (cfg : AssocCfg)
    (st : AssocState) (line : String) : AssocState :=
  if is_comment line then st
  else
    match extractRow terms cfg.gff (rowCols line) with
    | none => st
    | some (acc, prod, is_not) =>
      if !(is_not == "") && pyLower (pyStrip is_not) == "not" then st
      else if aspectTruthy cfg.aspect && !cfg.gff
          && !(pyUpper (pyStrip (colD (rowCols line) 8)) == cfg.aspect.getD "") then st
      else processRest terms slim pm cfg (rowCols line) acc prod st

/-- The streaming phase of `process_assocs` over all input lines. -/
def runAssocLines (terms : Terms) (slim : Finset String) (pm : PMap) (cfg : AssocCfg)
    (lines : List String) : AssocState :=
  lines.foldl (processLine terms slim pm cfg) initAssocState

/-! ### Count-mode output (`process_assocs`, COUNT MODE OUTPUT block) -/

/-- `build_child_map` looked up at `x` (map2slim.py lines 214-219, 506):
the ids whose recorded parents include `x`. -/
def childrenOf (pm : PMap) (x : String) : List String :=
  pm.filterMap (fun kv => if x ∈ kv.2 then some kv.1 else none)

/-- The slim roots: slim ids with no slim parent (map2slim.py lines
508-511).  The Python iteration order over the `slim` set is immaterial (the
final depth map is a least fixpoint); the sorted order is used here. -/
def slimRoots (pm : PMap) (slim : Finset String) : List String :=
  (slim.sort (· ≤ ·)).filter (fun s => (pget pm s).all (fun p => decide (p ∉ slim)))

/-- Pointwise update of the depth dict. -/
def dupd (D : String → Option Nat) (c : String) (v : Nat) : String → Option Nat :=
  fun s => if s = c then some v else D s

/-- Relaxation of one child edge in the slim-depth BFS (map2slim.py lines
517-522): a slim child `c` receives `depth[x] + 1` when unassigned or
improved, and is then re-enqueued. -/
def depthStep (slim : Finset String) (x : String)
    (st : (String → Option Nat) × List String) (c : String) :
    (String → Option Nat) × List String :=
  if c ∈ slim then
    match st.1 c with
    | none => (dupd st.1 c ((st.1 x).getD 0 + 1), st.2 ++ [c])
    | some old =>
      if (st.1 x).getD 0 + 1 < old then (dupd st.1 c ((st.1 x).getD 0 + 1), st.2 ++ [c])
      else st
  else st

/-- One pop of the slim-depth BFS (map2slim.py lines 515-522): propagate
`depth[x] + 1` to every slim child of `x`, keeping the minimum and
re-enqueueing on improvement. -/
def depthPop (pm : PMap) (slim : Finset String) (x : String)
    (st : (String → Option Nat) × List String) : (String → Option Nat) × List String :=
  (childrenOf pm x).foldl (depthStep slim x) st

/-- The slim-depth worklist loop (map2slim.py lines 514-522). -/
def depthLoop (pm : PMap) (slim : Finset String) :
    Nat → (String → Option Nat) → List String → (String → Option Nat)
  | 0, D, _ => D
  | _ + 1, D, [] => D
  | fuel + 1, D, x :: rest =>
    let st := depthPop pm slim x (D, rest)
    depthLoop pm slim fuel st.1 st.2

/-- Fuel for the depth BFS: on an acyclic slim graph the assigned depths
strictly decrease per node and never exceed `card slim`, so the number of
pops is bounded by the initial queue length plus `card slim` updates per
slim node. -/
def depthFuel (slim : Finset String) : Nat := (slim.card + 1) * (slim.card + 1) + 1

/-- The initial depth dict: roots at depth 0 (map2slim.py line 513). -/
def depthInit (pm : PMap) (slim : Finset String) : String → Option Nat :=
  fun s => if s ∈ slimRoots pm slim then some 0 else none

/-- The best-effort slim-DAG depth (map2slim.py lines 508-522). -/
def depthMap (pm : PMap) (slim : Finset String) : String → Option Nat :=
  depthLoop pm slim (depthFuel slim) (depthInit pm slim) (slimRoots pm slim)

/-- The count-mode sort order: ascending `(depth.get(s, 0), s)`
(map2slim.py lines 524-529). -/
def sortKeyLe (D : String → Option Nat) (a b : String) : Prop :=
  (D a).getD 0 < (D b).getD 0 ∨ ((D a).getD 0 = (D b).getD 0 ∧ a ≤ b)

instance sortKeyLeDec (D : String → Option Nat) : DecidableRel (sortKeyLe D) := by
  intro a b
  unfold sortKeyLe
  infer_instance

/-- The slim ids in count-mode output order (`sorted(slim, key=sort_key)`;
the key is injective, so any sort produces this list). -/
def countOrder (pm : PMap) (slim : Finset String) : List String :=
  (slim.sort (· ≤ ·)).insertionSort (sortKeyLe (depthMap pm slim))

/-- Python `str(n)`. -/
def natStr (n : Nat) : String := toString n

/-- One count-mode output line (map2slim.py lines 529-541). -/
def renderCountLine (tab : Bool) (D : String → Option Nat)
    (leafh allh : String → Finset String) (s : String) (t : GOTerm) : String :=
  let indent := if tab then String.mk (List.replicate ((D s).getD 0 + 1) ' ') else ""
  indent ++ s ++ " " ++ t.name ++ " (" ++ t.name ++ ")\t" ++ natStr (leafh s).card
    ++ "\t" ++ natStr (allh s).card ++ "\t" ++ (if t.is_obsolete then "OBSOLETE" else "")
    ++ "\t" ++ t.nspace

/-- The count-mode output block (map2slim.py lines 528-541): one line per
slim id in `(depth, id)` order, skipping ids missing from the graph. -/
def countModeOutput (pm : PMap) (slim : Finset String) (terms : Terms)
    (leafh allh : String → Finset String) (tab : Bool) : List String :=
  (countOrder pm slim).filterMap
    (fun s =>
      match tget terms s with
      | none => none
      | some t => some (renderCountLine tab (depthMap pm slim) leafh allh s t))

/-- `process_assocs` (map2slim.py lines 376-543) as a function from the
input lines to the produced output lines (map mode: the mapped rows; count
mode: the per-slim-id count lines). -/
def process_assocs (terms : Terms) (slim : Finset String) (pm : PMap) (cfg : AssocCfg)
    (lines : List String) : List String :=
  let st := runAssocLines terms slim pm cfg lines
  if cfg.count_mode then countModeOutput pm slim terms st.leafh st.allh cfg.tab
  else st.out

/-! ### Specification vocabulary for the count-mode depth -/

/-- The parent map restricted to edges between slim ids: the graph over
which the count-mode depth is defined. -/
def restrictSlim (pm : PMap) (slim : Finset String) : PMap :=
  pm.filterMap
    (fun kv =>
      if kv.1 ∈ slim then some (kv.1, kv.2.filter (fun p => decide (p ∈ slim))) else none)

/-- The nodes reachable upward from `x` in one or more steps, as a
computable set (used to state a decidable acyclicity hypothesis). -/
def reach1 (pm : PMap) (x : String) : Finset String :=
  (pget pm x).foldl (fun acc p => acc ∪ insert p (upClosureFrom pm p)) ∅

/-- Acyclicity of the slim-restricted parent graph: no slim id reaches
itself upward.  Decidable, and exactly the DAG assumption of the spec. -/
def SlimAcyclic (pm : PMap) (slim : Finset String) : Prop :=
  ∀ s ∈ slim, s ∉ reach1 (restrictSlim pm slim) s

instance slimAcyclicDec (pm : PMap) (slim : Finset String) : Decidable (SlimAcyclic pm slim) := by
  unfold SlimAcyclic
  infer_instance

/-- A slim root: a slim id with no slim parent. -/
def isRootP (pm : PMap) (slim : Finset String) (r : String) : Prop :=
  r ∈ slim ∧ ∀ p ∈ pget pm r, p ∉ slim

/-- A slim-restricted upward path: `SlimPath pm slim s r k` holds when a
k-step walk follows recorded parent edges from `s` up to `r` with every
node in the slim set. -/
inductive SlimPath (pm : PMap) (slim : Finset String) : String → String → Nat → Prop
  | refl (a : String) (ha : a ∈ slim) : SlimPath pm slim a a 0
  | step {a p b : String} {k : Nat} (ha : a ∈ slim) (hp : p ∈ pget pm a) (hps : p ∈ slim)
      (h : SlimPath pm slim p b k) : SlimPath pm slim a b (k + 1)

/-- The set of distances from `s` up to a slim root over slim-restricted
paths. -/
def rootDistSet (pm : PMap) (slim : Finset String) (s : String) : Set Nat :=
  {k | ∃ r, isRootP pm slim r ∧ SlimPath pm slim s r k}

/-- The slot of a node in the termination measure of the depth BFS. -/
def dslot (slim : Finset String) (D : String → Option Nat) (s : String) : Nat :=
  match D s with
  | some k => k
  | none => slim.card + 1

/-- Termination measure of the depth BFS: queue length plus the sum of all
slots (every relaxation strictly shrinks it). -/
def dmeasure (slim : Finset String) (D : String → Option Nat) (q : List String) : Nat :=
  q.length + slim.sum (dslot slim D)

/-- The invariant bundle of the slim-depth BFS. -/
structure DepthInv (pm : PMap) (slim : Finset String)
    (D : String → Option Nat) (q : List String) : Prop where
  sound : ∀ s k, D s = some k → s ∈ slim ∧ ∃ r, isRootP pm slim r ∧ SlimPath pm slim s r k
  qassigned : ∀ x ∈ q, (D x).isSome
  stable : ∀ x k, D x = some k → ∀ c, c ∈ childrenOf pm x → c ∈ slim →
    x ∈ q ∨ ∃ j, j ≤ k + 1 ∧ D c = some j
  roots0 : ∀ r, isRootP pm slim r → D r = some 0

/-- The ids that receive a line in count-mode output, in output order. -/
def countIds (pm : PMap) (slim : Finset String) (terms : Terms) : List String :=
  (countOrder pm slim).filter (fun s => (tget terms s).isSome)

/-! ### Invariants of the bounded BFS -/

lemma stepParent_cand_sub (slim : Finset String) (d : Nat) (st : BfsSt) (p : String)
    (h : st.cand ⊆ st.allA) : (stepParent slim d st p).cand ⊆ (stepParent slim d st p).allA := by
  by_cases hv : p ∈ st.visited
  · simpa [stepParent, hv] using h
  · by_cases hs : p ∈ slim
    · cases hb : st.best with
      | none => simp [stepParent, hv, hs, hb, Finset.singleton_subset_iff]
      | some b =>
        by_cases h1 : d + 1 < b
        · simp [stepParent, hv, hs, hb, h1, Finset.singleton_subset_iff]
        · by_cases h2 : d + 1 = b
          · simpa [stepParent, hv, hs, hb, h1, h2] using Finset.insert_subset_insert _ h
          · simpa [stepParent, hv, hs, hb, h1, h2] using
              h.trans (Finset.subset_insert _ _)
    · simpa [stepParent, hv, hs] using h

lemma foldl_stepParent_cand_sub (slim : Finset String) (d : Nat) :
    ∀ (ps : List String) (st : BfsSt), st.cand ⊆ st.allA →
      (ps.foldl (stepParent slim d) st).cand ⊆ (ps.foldl (stepParent slim d) st).allA := by
  intro ps
  induction ps with
  | nil => intro st h; simpa using h
  | cons p t ih =>
    intro st h
    exact ih _ (stepParent_cand_sub slim d st p h)

/-- Generic invariant principle for the bounded BFS: a property preserved by
every pop step holds for the final state. -/
lemma bfsRun_invariant (slim : Finset String) (pm : PMap) (P : BfsSt → Prop)
    (hstep : ∀ (st : BfsSt) node d rest, st.q = (node, d) :: rest → P st →
      P (bfsPop slim pm node d { st with q := rest })) :
    ∀ (fuel : Nat) (st : BfsSt), P st → P (bfsRun slim pm fuel st) := by
  intro fuel
  induction fuel with
  | zero => intro st h; simpa [bfsRun] using h
  | succ n ih =>
    intro st h
    rw [bfsRun]
    cases hq : st.q with
    | nil => exact h
    | cons hd rest =>
      obtain ⟨node, d⟩ := hd
      have h1 := hstep st node d rest hq h
      show P (if bfsStop (bfsPop slim pm node d { st with q := rest }) then
          bfsPop slim pm node d { st with q := rest }
        else bfsRun slim pm n (bfsPop slim pm node d { st with q := rest }))
      by_cases hstop : bfsStop (bfsPop slim pm node d { st with q := rest }) = true
      · rw [if_pos hstop]; exact h1
      · rw [if_neg hstop]; exact ih _ h1

lemma bfsRun_cand_sub (slim : Finset String) (pm : PMap)
    (fuel : Nat) (st : BfsSt) (h : st.cand ⊆ st.allA) :
    (bfsRun slim pm fuel st).cand ⊆ (bfsRun slim pm fuel st).allA := by
  refine bfsRun_invariant slim pm (fun s => s.cand ⊆ s.allA) ?_ fuel st h
  intro s node d rest _ hs
  exact foldl_stepParent_cand_sub slim d (pget pm node) { s with q := rest } hs

lemma pruneKeep_sub (pm : PMap) (s : Finset String) : pruneKeep pm s ⊆ s :=
  Finset.filter_subset _ s

/-- Every pair returned by `nearest_slim_ancestors` satisfies direct ⊆ all. -/
lemma nsa_direct_sub_all (start : String) (slim : Finset String) (pm : PMap)
    (ns : List (String × String)) (asp : String) :
    (nearest_slim_ancestors start slim pm ns asp).1 ⊆
      (nearest_slim_ancestors start slim pm ns asp).2 := by
  unfold nearest_slim_ancestors
  by_cases hst : start ∈ slim
  · simp [hst]
  · rw [if_neg hst]
    show (if 1 < (nsaBfs start slim pm).cand.card then pruneKeep pm (nsaBfs start slim pm).cand
          else (nsaBfs start slim pm).cand) ⊆
        (if (nsaBfs start slim pm).allA = ∅ then fbRun pm slim start
          else (nsaBfs start slim pm).allA)
    have hsub : (nsaBfs start slim pm).cand ⊆ (nsaBfs start slim pm).allA :=
      bfsRun_cand_sub slim pm (nsaFuel pm) (nsaInit start) (by simp [nsaInit])
    have hdir : (if 1 < (nsaBfs start slim pm).cand.card then
          pruneKeep pm (nsaBfs start slim pm).cand
        else (nsaBfs start slim pm).cand) ⊆ (nsaBfs start slim pm).cand := by
      by_cases hc : 1 < (nsaBfs start slim pm).cand.card
      · rw [if_pos hc]; exact pruneKeep_sub pm _
      · rw [if_neg hc]
    by_cases hall : (nsaBfs start slim pm).allA = ∅
    · rw [if_pos hall]
      intro z hz
      have hzc : z ∈ (∅ : Finset String) := hall ▸ hsub (hdir hz)
      exact absurd hzc (Finset.not_mem_empty z)
    · rw [if_neg hall]; exact hdir.trans hsub

/-! ### Soundness: the walks only ever meet nodes reachable upward from the
start, so a start with no slim ancestor yields empty results. -/

lemma reach_step (pm : PMap) (start x p : String)
    (hx : x = start ∨ Reaches pm start x) (hp : p ∈ pget pm x) :
    Reaches pm start p := by
  cases hx with
  | inl h => exact Relation.TransGen.single (show PStep pm start p from h ▸ hp)
  | inr h => exact Relation.TransGen.tail h hp

lemma bfsFold_unreachable (slim : Finset String) (pm : PMap) (start : String) (d : Nat) :
    ∀ (ps : List String), (∀ p ∈ ps, Reaches pm start p ∧ p ∉ slim) →
    ∀ (st : BfsSt), (∀ z ∈ st.q, z.1 = start ∨ Reaches pm start z.1) →
      st.cand = ∅ → st.allA = ∅ →
      (∀ z ∈ (ps.foldl (stepParent slim d) st).q, z.1 = start ∨ Reaches pm start z.1)
      ∧ (ps.foldl (stepParent slim d) st).cand = ∅
      ∧ (ps.foldl (stepParent slim d) st).allA = ∅ := by
  intro ps
  induction ps with
  | nil => intro _ st hq hc ha; exact ⟨hq, hc, ha⟩
  | cons p t ih =>
    intro hps st hq hc ha
    obtain ⟨hpr, hpn⟩ := hps p (List.mem_cons_self p t)
    have ht : ∀ z ∈ t, Reaches pm start z ∧ z ∉ slim :=
      fun z hz => hps z (List.mem_cons_of_mem p hz)
    simp only [List.foldl_cons]
    by_cases hv : p ∈ st.visited
    · exact ih ht _ (by simpa [stepParent, hv] using hq) (by simp [stepParent, hv, hc])
        (by simp [stepParent, hv, ha])
    · refine ih ht _ ?_ (by simp [stepParent, hv, hpn, hc]) (by simp [stepParent, hv, hpn, ha])
      intro z hz
      rcases (by simpa [stepParent, hv, hpn] using hz : z ∈ st.q ∨ z = (p, d + 1)) with h | rfl
      · exact hq z h
      · exact Or.inr hpr

lemma bfsRun_unreachable (slim : Finset String) (pm : PMap) (start : String)
    (Hyp : ∀ s, Reaches pm start s → s ∉ slim) (fuel : Nat) (st : BfsSt)
    (hq : ∀ z ∈ st.q, z.1 = start ∨ Reaches pm start z.1)
    (hc : st.cand = ∅) (ha : st.allA = ∅) :
    (bfsRun slim pm fuel st).cand = ∅ ∧ (bfsRun slim pm fuel st).allA = ∅ := by
  have h := bfsRun_invariant slim pm
    (fun s => (∀ z ∈ s.q, z.1 = start ∨ Reaches pm start z.1) ∧ s.cand = ∅ ∧ s.allA = ∅)
    ?_ fuel st ⟨hq, hc, ha⟩
  · exact ⟨h.2.1, h.2.2⟩
  · intro s node d rest hsq hP
    obtain ⟨hQ, hC, hA⟩ := hP
    have hnode : node = start ∨ Reaches pm start node := by
      have := hQ (node, d) (by rw [hsq]; exact List.mem_cons_self _ _)
      simpa using this
    have hps : ∀ p ∈ pget pm node, Reaches pm start p ∧ p ∉ slim := by
      intro p hp
      have hr := reach_step pm start node p hnode hp
      exact ⟨hr, Hyp p hr⟩
    refine bfsFold_unreachable slim pm start d (pget pm node) hps { s with q := rest } ?_ hC hA
    intro z hz
    exact hQ z (by rw [hsq]; exact List.mem_cons_of_mem _ hz)

lemma fbFold_unreachable (slim : Finset String) (pm : PMap) (start : String) :
    ∀ (ps : List String), (∀ p ∈ ps, Reaches pm start p ∧ p ∉ slim) →
    ∀ (st : WalkSt), (∀ z ∈ st.2.1, z = start ∨ Reaches pm start z) → st.2.2 = ∅ →
      (∀ z ∈ (ps.foldl (fbStep slim) st).2.1, z = start ∨ Reaches pm start z)
      ∧ (ps.foldl (fbStep slim) st).2.2 = ∅ := by
  intro ps
  induction ps with
  | nil => intro _ st hq ha; exact ⟨hq, ha⟩
  | cons p t ih =>
    intro hps st hq ha
    obtain ⟨hpr, hpn⟩ := hps p (List.mem_cons_self p t)
    have ht : ∀ z ∈ t, Reaches pm start z ∧ z ∉ slim :=
      fun z hz => hps z (List.mem_cons_of_mem p hz)
    simp only [List.foldl_cons]
    by_cases hv : p ∈ st.1
    · exact ih ht _ (by simpa [fbStep, hv] using hq) (by simp [fbStep, hv, ha])
    · refine ih ht _ ?_ (by simp [fbStep, hv, hpn, ha])
      intro z hz
      rcases (by simpa [fbStep, hv, hpn] using hz : z ∈ st.2.1 ∨ z = p) with h | rfl
      · exact hq z h
      · exact Or.inr hpr

lemma fbLoop_unreachable (slim : Finset String) (pm : PMap) (start : String)
    (Hyp : ∀ s, Reaches pm start s → s ∉ slim) :
    ∀ (fuel : Nat) (visited : Finset String) (q : List String) (acc : Finset String),
      (∀ z ∈ q, z = start ∨ Reaches pm start z) → acc = ∅ →
      fbLoop pm slim fuel visited q acc = ∅ := by
  intro fuel
  induction fuel with
  | zero => intro v q a _ ha; simpa [fbLoop] using ha
  | succ n ih =>
    intro v q a hq ha
    cases q with
    | nil => simpa [fbLoop] using ha
    | cons x rest =>
      have hx : x = start ∨ Reaches pm start x := hq x (List.mem_cons_self _ _)
      have hps : ∀ p ∈ pget pm x, Reaches pm start p ∧ p ∉ slim := by
        intro p hp
        have hr := reach_step pm start x p hx hp
        exact ⟨hr, Hyp p hr⟩
      have hfold := fbFold_unreachable slim pm start (pget pm x) hps (v, rest, a)
        (fun z hz => hq z (List.mem_cons_of_mem _ hz)) ha
      rw [fbLoop]
      exact ih _ _ _ hfold.1 hfold.2

/-! ### The pruning closure computes exactly the reachable proper ancestors -/

lemma pmSupport_length (pm : PMap) : (pmSupport pm).length = pmSize pm := by
  induction pm with
  | nil => rfl
  | cons kv l ih => simp [pmSupport, pmSize] at ih ⊢; omega

lemma mem_support_of_entry (pm : PMap) (kv : String × List String) (hkv : kv ∈ pm) :
    ∀ p ∈ kv.2, p ∈ pmSupport pm := by
  induction pm with
  | nil => simp at hkv
  | cons kv1 l ih =>
    intro p hp
    have hgoal : pmSupport (kv1 :: l) = kv1.1 :: (kv1.2 ++ pmSupport l) := rfl
    rw [hgoal]
    rcases List.mem_cons.mp hkv with rfl | h
    · exact List.mem_cons_of_mem _ (List.mem_append.mpr (Or.inl hp))
    · exact List.mem_cons_of_mem _ (List.mem_append.mpr (Or.inr (ih h p hp)))

lemma pget_sub_support (pm : PMap) (x : String) : ∀ p ∈ pget pm x, p ∈ pmSupport pm := by
  intro p hp
  unfold pget at hp
  cases hf : pm.find? (fun kv => kv.1 == x) with
  | none => rw [hf] at hp; simp at hp
  | some kv =>
    rw [hf] at hp
    have hp2 : p ∈ kv.2 := hp
    exact mem_support_of_entry pm kv (List.mem_of_find?_eq_some hf) p hp2

lemma upFold_spec (x : String) (pm : PMap) :
    ∀ (ps : List String) (st : WalkSt),
      st.1 = insert x st.2.2 → x ∉ st.2.2 → (∀ z ∈ st.2.1, z ∈ st.1) →
      (st.1 ⊆ (ps.foldl upStep st).1)
      ∧ ((ps.foldl upStep st).1 = insert x (ps.foldl upStep st).2.2)
      ∧ (x ∉ (ps.foldl upStep st).2.2)
      ∧ (st.2.2 ⊆ (ps.foldl upStep st).2.2)
      ∧ (∀ z ∈ (ps.foldl upStep st).2.1, z ∈ (ps.foldl upStep st).1)
      ∧ (∀ p ∈ ps, p ∈ (ps.foldl upStep st).1)
      ∧ (∀ z ∈ st.2.1, z ∈ (ps.foldl upStep st).2.1)
      ∧ (∀ w ∈ (ps.foldl upStep st).1, w ∈ st.1 ∨ w ∈ (ps.foldl upStep st).2.1)
      ∧ (∀ (UF : Finset String), (∀ p ∈ ps, p ∈ UF) →
          (UF \ (ps.foldl upStep st).1).card + (ps.foldl upStep st).2.1.length ≤
            (UF \ st.1).card + st.2.1.length) := by
  intro ps
  induction ps with
  | nil =>
    intro st h1 h2 h3
    exact ⟨Finset.Subset.refl _, h1, h2, Finset.Subset.refl _, h3,
      by simp, fun z hz => hz, fun w hw => Or.inl hw, fun UF _ => le_refl _⟩
  | cons p t ih =>
    intro st h1 h2 h3
    simp only [List.foldl_cons]
    by_cases hv : p ∈ st.1
    · have hstep : upStep st p = st := by simp [upStep, hv]
      rw [hstep]
      obtain ⟨c1, c2, c3, c4, c5, c6, c7, c8, c9⟩ := ih st h1 h2 h3
      exact ⟨c1, c2, c3, c4, c5,
        fun z hz => by
          rcases List.mem_cons.mp hz with rfl | hzt
          · exact c1 hv
          · exact c6 z hzt,
        c7, c8, fun UF hUF => c9 UF (fun z hz => hUF z (List.mem_cons_of_mem p hz))⟩
    · have hpx : p ≠ x := fun h => hv (h ▸ h1 ▸ Finset.mem_insert_self x st.2.2)
      have hstep : upStep st p = (insert p st.1, st.2.1 ++ [p], insert p st.2.2) := by
        simp [upStep, hv]
      rw [hstep]
      have h1' : (insert p st.1, st.2.1 ++ [p], insert p st.2.2).1 =
          insert x (insert p st.1, st.2.1 ++ [p], insert p st.2.2).2.2 := by
        show insert p st.1 = insert x (insert p st.2.2)
        rw [h1]; exact Finset.Insert.comm p x st.2.2
      have h2' : x ∉ insert p st.2.2 := by
        intro hx
        rcases Finset.mem_insert.mp hx with h | h
        · exact hpx h.symm
        · exact h2 h
      have h3' : ∀ z ∈ (insert p st.1, st.2.1 ++ [p], insert p st.2.2).2.1,
          z ∈ (insert p st.1, st.2.1 ++ [p], insert p st.2.2).1 := by
        intro z hz
        rcases List.mem_append.mp hz with h | h
        · exact Finset.mem_insert_of_mem (h3 z h)
        · rcases List.mem_singleton.mp h with rfl
          exact Finset.mem_insert_self _ _
      obtain ⟨c1, c2, c3, c4, c5, c6, c7, c8, c9⟩ := ih _ h1' h2' h3'
      refine ⟨(Finset.subset_insert p st.1).trans c1, c2, c3,
        (Finset.subset_insert p st.2.2).trans c4, c5, ?_, ?_, ?_, ?_⟩
      · intro z hz
        rcases List.mem_cons.mp hz with rfl | hzt
        · exact c1 (Finset.mem_insert_self z st.1)
        · exact c6 z hzt
      · intro z hz
        exact c7 z (List.mem_append.mpr (Or.inl hz))
      · intro w hw
        rcases c8 w hw with h | h
        · rcases Finset.mem_insert.mp h with rfl | h
          · exact Or.inr (c7 w (List.mem_append.mpr (Or.inr (List.mem_singleton_self _))))
          · exact Or.inl h
        · exact Or.inr h
      · intro UF hUF
        have hc := c9 UF (fun z hz => hUF z (List.mem_cons_of_mem p hz))
        have hpUF : p ∈ UF \ st.1 :=
          Finset.mem_sdiff.mpr ⟨hUF p (List.mem_cons_self p t), hv⟩
        have hcard : (UF \ insert p st.1).card = (UF \ st.1).card - 1 := by
          rw [Finset.sdiff_insert, Finset.card_erase_of_mem hpUF]
        have hpos : 1 ≤ (UF \ st.1).card := Finset.card_pos.mpr ⟨p, hpUF⟩
        have hlen : (st.2.1 ++ [p]).length = st.2.1.length + 1 := by simp
        calc (UF \ (t.foldl upStep (insert p st.1, st.2.1 ++ [p], insert p st.2.2)).1).card
              + (t.foldl upStep (insert p st.1, st.2.1 ++ [p], insert p st.2.2)).2.1.length
            ≤ (UF \ (insert p st.1, st.2.1 ++ [p], insert p st.2.2).1).card
              + (insert p st.1, st.2.1 ++ [p], insert p st.2.2).2.1.length := hc
          _ = (UF \ st.1).card - 1 + (st.2.1.length + 1) := by
              show (UF \ insert p st.1).card + (st.2.1 ++ [p]).length = _
              rw [hcard, hlen]
          _ = (UF \ st.1).card + st.2.1.length := by omega

lemma upLoop_run (pm : PMap) (x : String) :
    ∀ (fuel : Nat) (visited : Finset String) (q : List String) (anc : Finset String),
      visited = insert x anc → x ∉ anc → (∀ z ∈ q, z ∈ visited) →
      (∀ v ∈ visited, v ∈ q ∨ ∀ p ∈ pget pm v, p ∈ visited) →
      ((insert x (pmSupport pm).toFinset \ visited).card + q.length ≤ fuel) →
      ∃ ancF, upLoop pm fuel visited q anc = ancF ∧ anc ⊆ ancF ∧ x ∉ ancF ∧
        (∀ v ∈ insert x ancF, ∀ p ∈ pget pm v, p ∈ insert x ancF) := by
  intro fuel
  induction fuel with
  | zero =>
    intro visited q anc h1 h2 h3 h4 h5
    have hq : q = [] := List.length_eq_zero.mp (by omega)
    subst hq
    refine ⟨anc, by cases qized : anc with | _ => rfl, Finset.Subset.refl _, h2, ?_⟩
    intro v hv p hp
    rcases h4 v (h1 ▸ hv) with h | h
    · simp at h
    · exact h1 ▸ h p hp
  | succ n ih =>
    intro visited q anc h1 h2 h3 h4 h5
    cases q with
    | nil =>
      refine ⟨anc, rfl, Finset.Subset.refl _, h2, ?_⟩
      intro v hv p hp
      rcases h4 v (h1 ▸ hv) with h | h
      · simp at h
      · exact h1 ▸ h p hp
    | cons y rest =>
      rw [upLoop]
      obtain ⟨c1, c2, c3, c4, c5, c6, c7, c8, c9⟩ :=
        upFold_spec x pm (pget pm y) (visited, rest, anc) h1 h2
          (fun z hz => h3 z (List.mem_cons_of_mem y hz))
      set r := (pget pm y).foldl upStep (visited, rest, anc) with hr
      have hfr : ∀ v ∈ r.1, v ∈ r.2.1 ∨ ∀ p ∈ pget pm v, p ∈ r.1 := by
        intro v hv
        rcases c8 v hv with h | h
        · rcases h4 v h with hq | hcl
          · rcases List.mem_cons.mp hq with rfl | hrest
            · exact Or.inr (fun p hp => c6 p hp)
            · exact Or.inl (c7 v hrest)
          · exact Or.inr (fun p hp => c1 (hcl p hp))
        · exact Or.inl h
      have hmeas : (insert x (pmSupport pm).toFinset \ r.1).card + r.2.1.length ≤ n := by
        have h9 := c9 (insert x (pmSupport pm).toFinset)
          (fun p hp => Finset.mem_insert_of_mem (List.mem_toFinset.mpr (pget_sub_support pm y p hp)))
        have h9' : (insert x (pmSupport pm).toFinset \ r.1).card + r.2.1.length ≤
            (insert x (pmSupport pm).toFinset \ visited).card + rest.length := h9
        have h5' : (insert x (pmSupport pm).toFinset \ visited).card + (rest.length + 1) ≤ n + 1 := by
          simpa using h5
        omega
      obtain ⟨ancF, heq, hsub, hx, hcl⟩ := ih r.1 r.2.1 r.2.2 c2 c3 c5 hfr hmeas
      exact ⟨ancF, heq, c4.trans hsub, hx, hcl⟩

lemma upClosureFrom_spec (pm : PMap) (x : String) :
    x ∉ upClosureFrom pm x ∧
    (∀ v ∈ insert x (upClosureFrom pm x), ∀ p ∈ pget pm v, p ∈ insert x (upClosureFrom pm x)) := by
  have hmeas : (insert x (pmSupport pm).toFinset \ ({x} : Finset String)).card + 1 ≤ pmSize pm + 1 := by
    have h1 : insert x (pmSupport pm).toFinset \ ({x} : Finset String) ⊆ (pmSupport pm).toFinset := by
      intro z hz
      rcases Finset.mem_sdiff.mp hz with ⟨hz1, hz2⟩
      rcases Finset.mem_insert.mp hz1 with rfl | h
      · exact absurd (Finset.mem_singleton_self z) hz2
      · exact h
    have h2 := (Finset.card_le_card h1).trans (List.toFinset_card_le (pmSupport pm))
    rw [pmSupport_length] at h2
    omega
  obtain ⟨ancF, heq, _, hx, hcl⟩ := upLoop_run pm x (pmSize pm + 1) {x} [x] ∅
    (by simp) (Finset.not_mem_empty x) (by simp)
    (by intro v hv; rcases Finset.mem_singleton.mp hv with rfl; exact Or.inl (List.mem_singleton_self v))
    hmeas
  rw [show upClosureFrom pm x = ancF from heq]
  exact ⟨hx, hcl⟩

lemma upClosureFrom_complete (pm : PMap) (x a : String)
    (h : Reaches pm x a) (hne : a ≠ x) : a ∈ upClosureFrom pm x := by
  obtain ⟨hx, hclosed⟩ := upClosureFrom_spec pm x
  have hmem : ∀ b, Reaches pm x b → b ∈ insert x (upClosureFrom pm x) := by
    intro b hb
    induction hb with
    | single h1 => exact hclosed x (Finset.mem_insert_self _ _) _ h1
    | tail h1 h2 ih => exact hclosed _ ih _ h2
  rcases Finset.mem_insert.mp (hmem a h) with h | h
  · exact absurd h hne
  · exact h

lemma upFold_sound (pm : PMap) (x y : String) (hy : y = x ∨ Reaches pm x y) :
    ∀ (ps : List String), (∀ p ∈ ps, p ∈ pget pm y) →
    ∀ (st : WalkSt), (∀ w ∈ st.2.2, Reaches pm x w) → (∀ z ∈ st.2.1, z = x ∨ Reaches pm x z) →
      (∀ w ∈ (ps.foldl upStep st).2.2, Reaches pm x w)
      ∧ (∀ z ∈ (ps.foldl upStep st).2.1, z = x ∨ Reaches pm x z) := by
  intro ps
  induction ps with
  | nil => intro _ st ha hq; exact ⟨ha, hq⟩
  | cons p t ih =>
    intro hps st ha hq
    have hpr : Reaches pm x p := reach_step pm x y p hy (hps p (List.mem_cons_self p t))
    have ht : ∀ z ∈ t, z ∈ pget pm y := fun z hz => hps z (List.mem_cons_of_mem p hz)
    simp only [List.foldl_cons]
    by_cases hv : p ∈ st.1
    · have hstep : upStep st p = st := by simp [upStep, hv]
      rw [hstep]
      exact ih ht st ha hq
    · have hstep : upStep st p = (insert p st.1, st.2.1 ++ [p], insert p st.2.2) := by
        simp [upStep, hv]
      rw [hstep]
      refine ih ht _ ?_ ?_
      · intro w hw
        rcases Finset.mem_insert.mp (by simpa using hw) with rfl | h
        · exact hpr
        · exact ha w h
      · intro z hz
        rcases (by simpa using hz : z ∈ st.2.1 ∨ z = p) with h | rfl
        · exact hq z h
        · exact Or.inr hpr

lemma upLoop_sound (pm : PMap) (x : String) :
    ∀ (fuel : Nat) (visited : Finset String) (q : List String) (anc : Finset String),
      (∀ z ∈ q, z = x ∨ Reaches pm x z) → (∀ w ∈ anc, Reaches pm x w) →
      ∀ w ∈ upLoop pm fuel visited q anc, Reaches pm x w := by
  intro fuel
  induction fuel with
  | zero => intro v q a _ ha w hw; exact ha w (by simpa [upLoop] using hw)
  | succ n ih =>
    intro v q a hq ha
    cases q with
    | nil => intro w hw; exact ha w (by simpa [upLoop] using hw)
    | cons y rest =>
      rw [upLoop]
      have hy : y = x ∨ Reaches pm x y := hq y (List.mem_cons_self y rest)
      obtain ⟨ha', hq'⟩ := upFold_sound pm x y hy (pget pm y) (fun p hp => hp)
        (v, rest, a) ha (fun z hz => hq z (List.mem_cons_of_mem y hz))
      exact ih _ _ _ hq' ha'

lemma upClosureFrom_sound (pm : PMap) (x a : String)
    (h : a ∈ upClosureFrom pm x) : Reaches pm x a :=
  upLoop_sound pm x (pmSize pm + 1) {x} [x] ∅
    (by intro z hz; rcases List.mem_singleton.mp hz with rfl; exact Or.inl rfl)
    (fun w hw => absurd hw (Finset.not_mem_empty w)) a h

/-- A start term that is not slim and has no slim upward ancestor yields the
empty pair. -/
lemma nsa_unreachable_empty (start : String) (slim : Finset String) (pm : PMap)
    (ns : List (String × String)) (asp : String)
    (h1 : start ∉ slim) (h2 : ∀ s, Reaches pm start s → s ∉ slim) :
    nearest_slim_ancestors start slim pm ns asp = (∅, ∅) := by
  unfold nearest_slim_ancestors
  rw [if_neg h1]
  have hbfs := bfsRun_unreachable slim pm start h2 (nsaFuel pm) (nsaInit start)
    (by intro z hz; simp [nsaInit] at hz; simp [hz]) (by simp [nsaInit]) (by simp [nsaInit])
  show (if 1 < (nsaBfs start slim pm).cand.card then pruneKeep pm (nsaBfs start slim pm).cand
        else (nsaBfs start slim pm).cand,
      if (nsaBfs start slim pm).allA = ∅ then fbRun pm slim start
        else (nsaBfs start slim pm).allA) = (∅, ∅)
  have hc : (nsaBfs start slim pm).cand = ∅ := hbfs.1
  have ha : (nsaBfs start slim pm).allA = ∅ := hbfs.2
  have hfb : fbRun pm slim start = ∅ := by
    unfold fbRun
    exact fbLoop_unreachable slim pm start h2 _ _ _ _
      (by intro z hz; simp at hz; simp [hz]) rfl
  rw [hc, ha, if_pos rfl, hfb]
  simp

/-! ### Invariants of the association-processing state -/

lemma emitStep_counters (gff : Bool) (cols : List String) (st : AssocState) (s : String) :
    (emitStep gff cols st s).leafh = st.leafh ∧ (emitStep gff cols st s).allh = st.allh := by
  unfold emitStep
  by_cases hm : cols.set (if gff then 2 else 4) s ∈ st.seen
  · simp [hm]
  · simp [hm]

lemma emitRows_counters (gff : Bool) (cols : List String) (direct : Finset String)
    (st : AssocState) :
    (emitRows gff cols direct st).leafh = st.leafh
    ∧ (emitRows gff cols direct st).allh = st.allh := by
  unfold emitRows
  generalize direct.sort (· ≤ ·) = l
  induction l generalizing st with
  | nil => exact ⟨rfl, rfl⟩
  | cons s t ih =>
    simp only [List.foldl_cons]
    obtain ⟨h1, h2⟩ := ih (emitStep gff cols st s)
    obtain ⟨g1, g2⟩ := emitStep_counters gff cols st s
    exact ⟨h1.trans g1, h2.trans g2⟩

lemma updateCounters_sub (da : Finset String × Finset String) (hsub : da.1 ⊆ da.2)
    (prod : String) (st : AssocState) (h : ∀ s, st.leafh s ⊆ st.allh s) :
    ∀ s, (updateCounters da prod st).leafh s ⊆ (updateCounters da prod st).allh s := by
  intro s
  show (if s ∈ da.1 then insert prod (st.leafh s) else st.leafh s) ⊆
      (if s ∈ da.2 then insert prod (st.allh s) else st.allh s)
  by_cases h1 : s ∈ da.1
  · rw [if_pos h1, if_pos (hsub h1)]
    exact Finset.insert_subset_insert _ (h s)
  · rw [if_neg h1]
    by_cases h2 : s ∈ da.2
    · rw [if_pos h2]; exact (h s).trans (Finset.subset_insert _ _)
    · rw [if_neg h2]; exact h s

lemma processResolved_leaf_sub (gff count_mode : Bool) (cols : List String) (prod : String)
    (da : Finset String × Finset String) (hsub : da.1 ⊆ da.2) (st : AssocState)
    (h : ∀ s, st.leafh s ⊆ st.allh s) :
    ∀ s, (processResolved gff count_mode cols prod da st).leafh s ⊆
      (processResolved gff count_mode cols prod da st).allh s := by
  unfold processResolved
  have hupd := updateCounters_sub da hsub prod st h
  by_cases hde : da.1 = ∅ ∧ da.2 = ∅
  · rw [if_pos hde]; exact h
  · rw [if_neg hde]
    by_cases hcm : count_mode = true
    · rw [if_pos hcm]; exact hupd
    · rw [if_neg hcm]
      intro s
      obtain ⟨e1, e2⟩ := emitRows_counters gff cols da.1 (updateCounters da prod st)
      rw [e1, e2]
      exact hupd s

lemma processRest_leaf_sub (terms : Terms) (slim : Finset String) (pm : PMap)
    (cfg : AssocCfg) (cols : List String) (acc prod : String) (st : AssocState)
    (h : ∀ s, st.leafh s ⊆ st.allh s) :
    ∀ s, (processRest terms slim pm cfg cols acc prod st).leafh s ⊆
      (processRest terms slim pm cfg cols acc prod st).allh s := by
  unfold processRest
  cases normalize_go_id acc with
  | none => exact h
  | some accN =>
    dsimp only
    cases tget terms accN with
    | none => exact h
    | some t =>
      dsimp only
      by_cases hobs : t.is_obsolete = true
      · rw [if_pos hobs]; exact h
      · rw [if_neg hobs]
        exact processResolved_leaf_sub _ _ _ _ _ (nsa_direct_sub_all _ _ _ _ _) _ h

lemma processLine_leaf_sub (terms : Terms) (slim : Finset String) (pm : PMap)
    (cfg : AssocCfg) (st : AssocState) (line : String)
    (h : ∀ s, st.leafh s ⊆ st.allh s) :
    ∀ s, (processLine terms slim pm cfg st line).leafh s ⊆
      (processLine terms slim pm cfg st line).allh s := by
  unfold processLine
  by_cases hc : is_comment line = true
  · rw [if_pos hc]; exact h
  · rw [if_neg hc]
    cases extractRow terms cfg.gff (rowCols line) with
    | none => exact h
    | some v =>
      obtain ⟨acc, prod, is_not⟩ := v
      dsimp only
      by_cases h1 : (!(is_not == "") && pyLower (pyStrip is_not) == "not") = true
      · rw [if_pos h1]; exact h
      · rw [if_neg h1]
        by_cases h2 : (aspectTruthy cfg.aspect && !cfg.gff
            && !(pyUpper (pyStrip (colD (rowCols line) 8)) == cfg.aspect.getD "")) = true
        · rw [if_pos h2]; exact h
        · rw [if_neg h2]
          exact processRest_leaf_sub terms slim pm cfg (rowCols line) acc prod st h

/-- The aspect option influences `processRest` only through the `aspect_ns`
argument of the resolver, which the resolver never consumes. -/
lemma processRest_aspect (terms : Terms) (slim : Finset String) (pm : PMap)
    (a1 a2 : Option String) (g cm tab : Bool) (cols : List String) (acc prod : String)
    (st : AssocState) :
    processRest terms slim pm ⟨a1, g, cm, tab⟩ cols acc prod st =
      processRest terms slim pm ⟨a2, g, cm, tab⟩ cols acc prod st := rfl

lemma runAssocLines_leaf_sub (terms : Terms) (slim : Finset String) (pm : PMap)
    (cfg : AssocCfg) (lines : List String) :
    ∀ s, (runAssocLines terms slim pm cfg lines).leafh s ⊆
      (runAssocLines terms slim pm cfg lines).allh s := by
  unfold runAssocLines
  have h0 : ∀ s, initAssocState.leafh s ⊆ initAssocState.allh s := by
    intro s; exact Finset.Subset.refl _
  revert h0
  generalize initAssocState = st
  induction lines generalizing st with
  | nil => intro h; exact h
  | cons line rest ih =>
    intro h
    simp only [List.foldl_cons]
    exact ih _ (processLine_leaf_sub terms slim pm cfg st line h)

/-! ### The slim-restricted graph and its paths -/

lemma pget_cons (kv : String × List String) (l : PMap) (x : String) :
    pget (kv :: l) x = if kv.1 = x then kv.2 else pget l x := by
  unfold pget
  by_cases h : kv.1 = x
  · rw [List.find?_cons_of_pos _ (by simp [h]), if_pos h]
  · rw [List.find?_cons_of_neg _ (by simp [h]), if_neg h]

lemma pget_restrictSlim (pm : PMap) (slim : Finset String) (a : String) :
    pget (restrictSlim pm slim) a =
      if a ∈ slim then (pget pm a).filter (fun p => decide (p ∈ slim)) else [] := by
  induction pm with
  | nil =>
    by_cases h : a ∈ slim <;> simp [restrictSlim, pget, h]
  | cons kv l ih =>
    by_cases hk : kv.1 ∈ slim
    · have hr : restrictSlim (kv :: l) slim =
          (kv.1, kv.2.filter (fun p => decide (p ∈ slim))) :: restrictSlim l slim := by
        simp [restrictSlim, hk]
      rw [hr, pget_cons, pget_cons]
      by_cases ha : kv.1 = a
      · subst ha
        rw [if_pos rfl, if_pos rfl, if_pos hk]
      · rw [if_neg ha, if_neg ha, ih]
    · have hr : restrictSlim (kv :: l) slim = restrictSlim l slim := by
        simp [restrictSlim, hk]
      rw [hr, ih, pget_cons]
      by_cases ha : kv.1 = a
      · subst ha
        rw [if_neg hk, if_neg hk]
      · rw [if_neg ha]

lemma pget_restrict_mem (pm : PMap) (slim : Finset String) (a p : String) :
    p ∈ pget (restrictSlim pm slim) a ↔ a ∈ slim ∧ p ∈ pget pm a ∧ p ∈ slim := by
  rw [pget_restrictSlim]
  by_cases h : a ∈ slim
  · rw [if_pos h]
    simp [List.mem_filter, h]
  · rw [if_neg h]
    simp [h]

lemma mem_foldl_union (f : String → Finset String) :
    ∀ (l : List String) (acc : Finset String) (y : String),
      (y ∈ l.foldl (fun acc p => acc ∪ f p) acc) ↔ (y ∈ acc ∨ ∃ p ∈ l, y ∈ f p) := by
  intro l
  induction l with
  | nil => intro acc y; simp
  | cons p t ih =>
    intro acc y
    simp only [List.foldl_cons]
    rw [ih]
    simp [Finset.mem_union, or_assoc]

lemma reach1_sound (pm : PMap) (x a : String) (h : a ∈ reach1 pm x) : Reaches pm x a := by
  rw [reach1, mem_foldl_union] at h
  rcases h with h | ⟨p, hp, hmem⟩
  · exact absurd h (Finset.not_mem_empty a)
  · rcases Finset.mem_insert.mp hmem with rfl | hup
    · exact Relation.TransGen.single hp
    · exact (Relation.TransGen.single (show PStep pm x p from hp)).trans
        (upClosureFrom_sound pm p a hup)

lemma reach1_complete (pm : PMap) (x a : String) (h : Reaches pm x a) : a ∈ reach1 pm x := by
  rw [reach1, mem_foldl_union]
  right
  rcases Relation.TransGen.head'_iff.mp h with ⟨b, hb, hrest⟩
  refine ⟨b, hb, ?_⟩
  rcases Relation.reflTransGen_iff_eq_or_transGen.mp hrest with heq | htg
  · rw [heq]
    exact Finset.mem_insert_self _ _
  · by_cases hab : a = b
    · rw [hab]
      exact Finset.mem_insert_self _ _
    · exact Finset.mem_insert_of_mem (upClosureFrom_complete pm b a htg hab)

lemma reach1_step_lt (pm : PMap) (s p : String) (hstep : p ∈ pget pm s)
    (hpp : p ∉ reach1 pm p) : (reach1 pm p).card < (reach1 pm s).card := by
  have hsub : reach1 pm p ⊆ reach1 pm s := by
    intro a ha
    exact reach1_complete pm s a
      ((Relation.TransGen.single (show PStep pm s p from hstep)).trans (reach1_sound pm p a ha))
  have hps : p ∈ reach1 pm s := reach1_complete pm s p (Relation.TransGen.single hstep)
  exact Finset.card_lt_card ((Finset.ssubset_iff_of_subset hsub).mpr ⟨p, hps, hpp⟩)

lemma reach1_restrict_sub_slim (pm : PMap) (slim : Finset String) (s : String) :
    reach1 (restrictSlim pm slim) s ⊆ slim := by
  intro a ha
  have h := reach1_sound _ s a ha
  induction h with
  | single h1 => exact ((pget_restrict_mem pm slim _ _).mp h1).2.2
  | tail h1 h2 ih => exact ((pget_restrict_mem pm slim _ _).mp h2).2.2

lemma childrenOf_mem (pm : PMap) (x c : String) :
    c ∈ childrenOf pm x ↔ ∃ vs, (c, vs) ∈ pm ∧ x ∈ vs := by
  unfold childrenOf
  rw [List.mem_filterMap]
  constructor
  · rintro ⟨kv, hkv, hf⟩
    by_cases hx : x ∈ kv.2
    · rw [if_pos hx] at hf
      injection hf with h1
      refine ⟨kv.2, ?_, hx⟩
      have heq : (c, kv.2) = kv := by rw [← h1]
      rw [heq]
      exact hkv
    · rw [if_neg hx] at hf
      cases hf
  · rintro ⟨vs, hmem, hx⟩
    exact ⟨(c, vs), hmem, by rw [if_pos hx]⟩

lemma mem_pget_of_entry (pm : PMap) (c : String) (vs : List String) (x : String)
    (hkeys : (pm.map Prod.fst).Nodup) (hmem : (c, vs) ∈ pm) (hx : x ∈ vs) :
    x ∈ pget pm c := by
  induction pm with
  | nil => simp at hmem
  | cons kv l ih =>
    rw [pget_cons]
    rcases List.mem_cons.mp hmem with heq | hl
    · rw [← heq]
      simp [hx]
    · rw [List.map_cons] at hkeys
      have hnd := List.nodup_cons.mp hkeys
      have hck : c ∈ l.map Prod.fst := List.mem_map.mpr ⟨(c, vs), hl, rfl⟩
      have hne : ¬ kv.1 = c := fun h => hnd.1 (h ▸ hck)
      rw [if_neg hne]
      exact ih hnd.2 hl

lemma childrenOf_pget (pm : PMap) (hkeys : (pm.map Prod.fst).Nodup) (x c : String) :
    c ∈ childrenOf pm x ↔ x ∈ pget pm c := by
  constructor
  · intro h
    obtain ⟨vs, hmem, hx⟩ := (childrenOf_mem pm x c).mp h
    exact mem_pget_of_entry pm c vs x hkeys hmem hx
  · intro h
    unfold pget at h
    cases hf : pm.find? (fun kv => kv.1 == c) with
    | none => rw [hf] at h; simp at h
    | some kv =>
      rw [hf] at h
      have hkv : kv ∈ pm := List.mem_of_find?_eq_some hf
      have hkey : kv.1 = c := by
        have := List.find?_some hf
        simpa using this
      refine (childrenOf_mem pm x c).mpr ⟨kv.2, ?_, h⟩
      have heq : (c, kv.2) = kv := by rw [← hkey]
      rw [heq]
      exact hkv

lemma slimPath_le_card (pm : PMap) (slim : Finset String) (hacyc : SlimAcyclic pm slim) :
    ∀ {s r k}, SlimPath pm slim s r k → k ≤ (reach1 (restrictSlim pm slim) s).card := by
  intro s r k h
  induction h with
  | refl _ _ => exact Nat.zero_le _
  | @step a p b k ha hp hps h ih =>
    have hstep : p ∈ pget (restrictSlim pm slim) a :=
      (pget_restrict_mem pm slim a p).mpr ⟨ha, hp, hps⟩
    have hlt := reach1_step_lt (restrictSlim pm slim) a p hstep (hacyc p hps)
    omega

lemma exists_root_path (pm : PMap) (slim : Finset String) (hacyc : SlimAcyclic pm slim) :
    ∀ s ∈ slim, ∃ k r, isRootP pm slim r ∧ SlimPath pm slim s r k := by
  have haux : ∀ (n : Nat) (s : String), s ∈ slim →
      (reach1 (restrictSlim pm slim) s).card ≤ n →
      ∃ k r, isRootP pm slim r ∧ SlimPath pm slim s r k := by
    intro n
    induction n with
    | zero =>
      intro s hs hcard
      by_cases hroot : ∀ p ∈ pget pm s, p ∉ slim
      · exact ⟨0, s, ⟨hs, hroot⟩, SlimPath.refl s hs⟩
      · push_neg at hroot
        obtain ⟨p, hp, hps⟩ := hroot
        have hstep : p ∈ pget (restrictSlim pm slim) s :=
          (pget_restrict_mem pm slim s p).mpr ⟨hs, hp, hps⟩
        have hmem : p ∈ reach1 (restrictSlim pm slim) s :=
          reach1_complete _ _ _ (Relation.TransGen.single hstep)
        have := Finset.card_pos.mpr ⟨p, hmem⟩
        omega
    | succ n ih =>
      intro s hs hcard
      by_cases hroot : ∀ p ∈ pget pm s, p ∉ slim
      · exact ⟨0, s, ⟨hs, hroot⟩, SlimPath.refl s hs⟩
      · push_neg at hroot
        obtain ⟨p, hp, hps⟩ := hroot
        have hstep : p ∈ pget (restrictSlim pm slim) s :=
          (pget_restrict_mem pm slim s p).mpr ⟨hs, hp, hps⟩
        have hlt := reach1_step_lt (restrictSlim pm slim) s p hstep (hacyc p hps)
        obtain ⟨k, r, hr, hpath⟩ := ih p hps (by omega)
        exact ⟨k + 1, r, hr, SlimPath.step hs hp hps hpath⟩
  intro s hs
  exact haux _ s hs (le_refl _)

/-! ### The depth relaxation computes the minimal root distance -/

lemma dupd_self (D : String → Option Nat) (c : String) (v : Nat) : dupd D c v c = some v := by
  unfold dupd
  rw [if_pos rfl]

lemma dupd_other (D : String → Option Nat) (c : String) (v : Nat) (s : String)
    (h : ¬ s = c) : dupd D c v s = D s := by
  unfold dupd
  rw [if_neg h]

lemma dslot_dupd_self (slim : Finset String) (D : String → Option Nat) (c : String) (v : Nat) :
    dslot slim (dupd D c v) c = v := by
  unfold dslot
  rw [dupd_self]

lemma dslot_dupd_other (slim : Finset String) (D : String → Option Nat) (c : String) (v : Nat)
    (s : String) (h : ¬ s = c) : dslot slim (dupd D c v) s = dslot slim D s := by
  unfold dslot
  rw [dupd_other _ _ _ _ h]

lemma slim_child_ne (pm : PMap) (slim : Finset String)
    (hkeys : (pm.map Prod.fst).Nodup) (hacyc : SlimAcyclic pm slim)
    (c : String) (hc : c ∈ childrenOf pm c) (hcs : c ∈ slim) : False := by
  have hp : c ∈ pget pm c := (childrenOf_pget pm hkeys c c).mp hc
  have hstep : c ∈ pget (restrictSlim pm slim) c :=
    (pget_restrict_mem pm slim c c).mpr ⟨hcs, hp, hcs⟩
  exact hacyc c hcs (reach1_complete _ _ _ (Relation.TransGen.single hstep))

lemma update_value_le (pm : PMap) (slim : Finset String)
    (hkeys : (pm.map Prod.fst).Nodup) (hacyc : SlimAcyclic pm slim)
    (x c : String) (k0 : Nat) (hxslim : x ∈ slim)
    (hxpath : ∃ r, isRootP pm slim r ∧ SlimPath pm slim x r k0)
    (hc : c ∈ childrenOf pm x) (hcs : c ∈ slim) :
    (k0 + 1 ≤ slim.card) ∧ (∃ r, isRootP pm slim r ∧ SlimPath pm slim c r (k0 + 1)) := by
  obtain ⟨r, hr, hpath⟩ := hxpath
  have hedge : x ∈ pget pm c := (childrenOf_pget pm hkeys x c).mp hc
  have hpath1 : SlimPath pm slim c r (k0 + 1) := SlimPath.step hcs hedge hxslim hpath
  refine ⟨?_, r, hr, hpath1⟩
  have h1 := slimPath_le_card pm slim hacyc hpath1
  have h2 := Finset.card_le_card (reach1_restrict_sub_slim pm slim c)
  omega

lemma dmeasure_update_le (slim : Finset String) (D : String → Option Nat) (q : List String)
    (c : String) (hc : c ∈ slim) (v : Nat) (hlt : v < dslot slim D c) :
    dmeasure slim (dupd D c v) (q ++ [c]) ≤ dmeasure slim D q := by
  unfold dmeasure
  have hsum : slim.sum (dslot slim (dupd D c v)) < slim.sum (dslot slim D) := by
    apply Finset.sum_lt_sum
    · intro i _
      by_cases hic : i = c
      · subst hic
        rw [dslot_dupd_self]
        omega
      · rw [dslot_dupd_other _ _ _ _ _ hic]
    · refine ⟨c, hc, ?_⟩
      rw [dslot_dupd_self]
      exact hlt
  have hlen : (q ++ [c]).length = q.length + 1 := by simp
  omega

/-- Reestablishment of all depth invariants across one improving
relaxation of the edge from `x` to its slim child `c`. -/
lemma depth_update_invariants (pm : PMap) (slim : Finset String)
    (hkeys : (pm.map Prod.fst).Nodup) (hacyc : SlimAcyclic pm slim)
    (x c : String) (k0 : Nat) (t : List String)
    (D : String → Option Nat) (q : List String)
    (hDx : D x = some k0)
    (hsound : ∀ s k, D s = some k → s ∈ slim ∧ ∃ r, isRootP pm slim r ∧ SlimPath pm slim s r k)
    (hqa : ∀ z ∈ q, (D z).isSome)
    (hstab : ∀ x' k', D x' = some k' → ∀ c', c' ∈ childrenOf pm x' → c' ∈ slim →
      (x' = x ∧ c' ∈ c :: t) ∨ x' ∈ q ∨ ∃ j, j ≤ k' + 1 ∧ D c' = some j)
    (hroots : ∀ r, isRootP pm slim r → D r = some 0)
    (hcchild : c ∈ childrenOf pm x) (hcslim : c ∈ slim)
    (hold : ∀ old, D c = some old → k0 + 1 < old) :
    (dupd D c (k0 + 1) x = some k0)
    ∧ (∀ s k, dupd D c (k0 + 1) s = some k →
        s ∈ slim ∧ ∃ r, isRootP pm slim r ∧ SlimPath pm slim s r k)
    ∧ (∀ z ∈ q ++ [c], (dupd D c (k0 + 1) z).isSome)
    ∧ (∀ x' k', dupd D c (k0 + 1) x' = some k' → ∀ c', c' ∈ childrenOf pm x' → c' ∈ slim →
        (x' = x ∧ c' ∈ t) ∨ x' ∈ q ++ [c] ∨ ∃ j, j ≤ k' + 1 ∧ dupd D c (k0 + 1) c' = some j)
    ∧ (∀ r, isRootP pm slim r → dupd D c (k0 + 1) r = some 0)
    ∧ dmeasure slim (dupd D c (k0 + 1)) (q ++ [c]) ≤ dmeasure slim D q := by
  have hxslim : x ∈ slim := (hsound x k0 hDx).1
  have hcnex : ¬ c = x := by
    intro heq
    subst heq
    exact slim_child_ne pm slim hkeys hacyc c hcchild hcslim
  have hxnec : ¬ x = c := fun h => hcnex h.symm
  have hbound := update_value_le pm slim hkeys hacyc x c k0 hxslim (hsound x k0 hDx).2
    hcchild hcslim
  have hcnotroot : ¬ isRootP pm slim c := by
    intro hr
    exact hr.2 x ((childrenOf_pget pm hkeys x c).mp hcchild) hxslim
  refine ⟨?_, ?_, ?_, ?_, ?_, ?_⟩
  · rw [dupd_other _ _ _ _ hxnec]
    exact hDx
  · intro s k hk
    by_cases hsc : s = c
    · subst hsc
      rw [dupd_self] at hk
      injection hk with hkk
      subst hkk
      exact ⟨hcslim, hbound.2⟩
    · rw [dupd_other _ _ _ _ hsc] at hk
      exact hsound s k hk
  · intro z hz
    by_cases hzc : z = c
    · subst hzc
      rw [dupd_self]
      rfl
    · rw [dupd_other _ _ _ _ hzc]
      rcases List.mem_append.mp hz with h | h
      · exact hqa z h
      · rcases List.mem_singleton.mp h with rfl
        exact absurd rfl hzc
  · intro x' k' hk' c' hc' hcs'
    by_cases hx'c : x' = c
    · subst hx'c
      exact Or.inr (Or.inl (List.mem_append.mpr (Or.inr (List.mem_singleton_self _))))
    · rw [dupd_other _ _ _ _ hx'c] at hk'
      rcases hstab x' k' hk' c' hc' hcs' with ⟨hxx, hmem⟩ | h | ⟨j, hj, hDc'⟩
      · rcases List.mem_cons.mp hmem with rfl | hmt
        · subst hxx
          have hk0 : k' = k0 := by
            rw [hDx] at hk'
            injection hk' with h
            exact h.symm
          exact Or.inr (Or.inr ⟨k0 + 1, by omega, dupd_self D c' (k0 + 1)⟩)
        · exact Or.inl ⟨hxx, hmt⟩
      · exact Or.inr (Or.inl (List.mem_append.mpr (Or.inl h)))
      · by_cases hc'c : c' = c
        · subst hc'c
          have hlt := hold j hDc'
          exact Or.inr (Or.inr ⟨k0 + 1, by omega, dupd_self D c' (k0 + 1)⟩)
        · exact Or.inr (Or.inr ⟨j, hj, by rw [dupd_other _ _ _ _ hc'c]; exact hDc'⟩)
  · intro r hr
    by_cases hrc : r = c
    · subst hrc
      exact absurd hr hcnotroot
    · rw [dupd_other _ _ _ _ hrc]
      exact hroots r hr
  · apply dmeasure_update_le slim D q c hcslim
    cases hDc : D c with
    | none =>
      have hslot : dslot slim D c = slim.card + 1 := by
        unfold dslot
        rw [hDc]
      rw [hslot]
      have hb := hbound.1
      omega
    | some old =>
      have hslot : dslot slim D c = old := by
        unfold dslot
        rw [hDc]
      rw [hslot]
      exact hold old hDc

lemma depthFold_spec (pm : PMap) (slim : Finset String)
    (hkeys : (pm.map Prod.fst).Nodup) (hacyc : SlimAcyclic pm slim)
    (x : String) (k0 : Nat) :
    ∀ (cs : List String), (∀ c ∈ cs, c ∈ childrenOf pm x) →
    ∀ (D : String → Option Nat) (q : List String),
      D x = some k0 →
      (∀ s k, D s = some k → s ∈ slim ∧ ∃ r, isRootP pm slim r ∧ SlimPath pm slim s r k) →
      (∀ z ∈ q, (D z).isSome) →
      (∀ x' k', D x' = some k' → ∀ c', c' ∈ childrenOf pm x' → c' ∈ slim →
        (x' = x ∧ c' ∈ cs) ∨ x' ∈ q ∨ ∃ j, j ≤ k' + 1 ∧ D c' = some j) →
      (∀ r, isRootP pm slim r → D r = some 0) →
      ((cs.foldl (depthStep slim x) (D, q)).1 x = some k0)
      ∧ (∀ s k, (cs.foldl (depthStep slim x) (D, q)).1 s = some k →
          s ∈ slim ∧ ∃ r, isRootP pm slim r ∧ SlimPath pm slim s r k)
      ∧ (∀ z ∈ (cs.foldl (depthStep slim x) (D, q)).2,
          ((cs.foldl (depthStep slim x) (D, q)).1 z).isSome)
      ∧ (∀ x' k', (cs.foldl (depthStep slim x) (D, q)).1 x' = some k' →
          ∀ c', c' ∈ childrenOf pm x' → c' ∈ slim →
          x' ∈ (cs.foldl (depthStep slim x) (D, q)).2
          ∨ ∃ j, j ≤ k' + 1 ∧ (cs.foldl (depthStep slim x) (D, q)).1 c' = some j)
      ∧ (∀ r, isRootP pm slim r → (cs.foldl (depthStep slim x) (D, q)).1 r = some 0)
      ∧ (∀ z ∈ q, z ∈ (cs.foldl (depthStep slim x) (D, q)).2)
      ∧ dmeasure slim (cs.foldl (depthStep slim x) (D, q)).1
          (cs.foldl (depthStep slim x) (D, q)).2 ≤ dmeasure slim D q := by
  intro cs
  induction cs with
  | nil =>
    intro _ D q hDx hsound hqa hstab hroots
    refine ⟨hDx, hsound, hqa, ?_, hroots, fun z hz => hz, le_refl _⟩
    intro x' k' hk' c' hc' hcs'
    rcases hstab x' k' hk' c' hc' hcs' with ⟨_, hmem⟩ | h | h
    · exact absurd hmem (List.not_mem_nil c')
    · exact Or.inl h
    · exact Or.inr h
  | cons c t ih =>
    intro hcs D q hDx hsound hqa hstab hroots
    simp only [List.foldl_cons]
    by_cases hcslim : c ∈ slim
    · have hcchild : c ∈ childrenOf pm x := hcs c (List.mem_cons_self c t)
      have hgetD : (D x).getD 0 = k0 := by rw [hDx]; rfl
      cases hDc : D c with
      | none =>
        have hstep : depthStep slim x (D, q) c = (dupd D c (k0 + 1), q ++ [c]) := by
          unfold depthStep
          rw [if_pos hcslim]
          dsimp only
          rw [hDc, hgetD]
        rw [hstep]
        obtain ⟨u1, u2, u3, u4, u5, u6⟩ := depth_update_invariants pm slim hkeys hacyc x c k0 t
          D q hDx hsound hqa hstab hroots hcchild hcslim
          (fun old h => by rw [hDc] at h; cases h)
        obtain ⟨f1, f2, f3, f4, f5, f6, f7⟩ :=
          ih (fun c' h => hcs c' (List.mem_cons_of_mem c h))
            (dupd D c (k0 + 1)) (q ++ [c]) u1 u2 u3 u4 u5
        exact ⟨f1, f2, f3, f4, f5,
          fun z hz => f6 z (List.mem_append.mpr (Or.inl hz)), f7.trans u6⟩
      | some old =>
        by_cases hlt : k0 + 1 < old
        · have hstep : depthStep slim x (D, q) c = (dupd D c (k0 + 1), q ++ [c]) := by
            unfold depthStep
            rw [if_pos hcslim]
            dsimp only
            rw [hDc]
            show (if (D x).getD 0 + 1 < old then
                (dupd D c ((D x).getD 0 + 1), q ++ [c]) else (D, q)) = _
            rw [hgetD, if_pos hlt]
          rw [hstep]
          obtain ⟨u1, u2, u3, u4, u5, u6⟩ := depth_update_invariants pm slim hkeys hacyc x c k0 t
            D q hDx hsound hqa hstab hroots hcchild hcslim
            (fun old' h => by rw [hDc] at h; injection h with he; omega)
          obtain ⟨f1, f2, f3, f4, f5, f6, f7⟩ :=
            ih (fun c' h => hcs c' (List.mem_cons_of_mem c h))
              (dupd D c (k0 + 1)) (q ++ [c]) u1 u2 u3 u4 u5
          exact ⟨f1, f2, f3, f4, f5,
            fun z hz => f6 z (List.mem_append.mpr (Or.inl hz)), f7.trans u6⟩
        · have hstep : depthStep slim x (D, q) c = (D, q) := by
            unfold depthStep
            rw [if_pos hcslim]
            dsimp only
            rw [hDc]
            show (if (D x).getD 0 + 1 < old then
                (dupd D c ((D x).getD 0 + 1), q ++ [c]) else (D, q)) = _
            rw [hgetD, if_neg hlt]
          rw [hstep]
          apply ih (fun c' h => hcs c' (List.mem_cons_of_mem c h)) D q hDx hsound hqa ?_ hroots
          intro x' k' hk' c' hc' hcs'
          rcases hstab x' k' hk' c' hc' hcs' with ⟨hxx, hmem⟩ | h | h
          · rcases List.mem_cons.mp hmem with rfl | hmt
            · have hk0 : k' = k0 := by
                rw [hxx, hDx] at hk'
                injection hk' with h
                exact h.symm
              exact Or.inr (Or.inr ⟨old, by omega, hDc⟩)
            · exact Or.inl ⟨hxx, hmt⟩
          · exact Or.inr (Or.inl h)
          · exact Or.inr (Or.inr h)
    · have hstep : depthStep slim x (D, q) c = (D, q) := by
        unfold depthStep
        rw [if_neg hcslim]
      rw [hstep]
      apply ih (fun c' h => hcs c' (List.mem_cons_of_mem c h)) D q hDx hsound hqa ?_ hroots
      intro x' k' hk' c' hc' hcs'
      rcases hstab x' k' hk' c' hc' hcs' with ⟨hxx, hmem⟩ | h | h
      · rcases List.mem_cons.mp hmem with rfl | hmt
        · exact absurd hcs' hcslim
        · exact Or.inl ⟨hxx, hmt⟩
      · exact Or.inr (Or.inl h)
      · exact Or.inr (Or.inr h)

lemma depthLoop_spec (pm : PMap) (slim : Finset String)
    (hkeys : (pm.map Prod.fst).Nodup) (hacyc : SlimAcyclic pm slim) :
    ∀ (fuel : Nat) (D : String → Option Nat) (q : List String),
      DepthInv pm slim D q → dmeasure slim D q ≤ fuel →
      DepthInv pm slim (depthLoop pm slim fuel D q) [] := by
  intro fuel
  induction fuel with
  | zero =>
    intro D q hinv hm
    have hq : q = [] := by
      unfold dmeasure at hm
      exact List.length_eq_zero.mp (by omega)
    subst hq
    exact ⟨hinv.sound, fun z hz => absurd hz (List.not_mem_nil z),
      fun x k hk c hc hcs => hinv.stable x k hk c hc hcs, hinv.roots0⟩
  | succ n ih =>
    intro D q hinv hm
    cases q with
    | nil =>
      rw [depthLoop]
      exact ⟨hinv.sound, fun z hz => absurd hz (List.not_mem_nil z),
        fun x k hk c hc hcs => hinv.stable x k hk c hc hcs, hinv.roots0⟩
    | cons x rest =>
      rw [depthLoop]
      obtain ⟨k0, hDx⟩ := Option.isSome_iff_exists.mp
        (hinv.qassigned x (List.mem_cons_self x rest))
      have hstab0 : ∀ x' k', D x' = some k' → ∀ c', c' ∈ childrenOf pm x' → c' ∈ slim →
          (x' = x ∧ c' ∈ childrenOf pm x) ∨ x' ∈ rest ∨ ∃ j, j ≤ k' + 1 ∧ D c' = some j := by
        intro x' k' hk' c' hc' hcs'
        rcases hinv.stable x' k' hk' c' hc' hcs' with hq | h
        · rcases List.mem_cons.mp hq with rfl | hr
          · exact Or.inl ⟨rfl, hc'⟩
          · exact Or.inr (Or.inl hr)
        · exact Or.inr (Or.inr h)
      obtain ⟨f1, f2, f3, f4, f5, f6, f7⟩ := depthFold_spec pm slim hkeys hacyc x k0
        (childrenOf pm x) (fun c h => h) D rest hDx hinv.sound
        (fun z hz => hinv.qassigned z (List.mem_cons_of_mem x hz)) hstab0 hinv.roots0
      apply ih
      · exact ⟨f2, f3, f4, f5⟩
      · have hm1 : dmeasure slim D (x :: rest) = dmeasure slim D rest + 1 := by
          unfold dmeasure
          simp [List.length_cons]
          omega
        have f7' : dmeasure slim (depthPop pm slim x (D, rest)).1
            (depthPop pm slim x (D, rest)).2 ≤ dmeasure slim D rest := f7
        omega

lemma mem_slimRoots (pm : PMap) (slim : Finset String) (s : String) :
    s ∈ slimRoots pm slim ↔ isRootP pm slim s := by
  unfold slimRoots isRootP
  rw [List.mem_filter]
  simp [Finset.mem_sort, List.all_eq_true]

/-- The final depth map of the count-mode BFS satisfies all invariants with
an empty queue, i.e. it is sound, stable and assigns 0 to every root. -/
lemma depthMap_invFinal (pm : PMap) (slim : Finset String)
    (hkeys : (pm.map Prod.fst).Nodup) (hacyc : SlimAcyclic pm slim) :
    DepthInv pm slim (depthMap pm slim) [] := by
  unfold depthMap
  apply depthLoop_spec pm slim hkeys hacyc
  · refine ⟨?_, ?_, ?_, ?_⟩
    · intro s k hk
      unfold depthInit at hk
      by_cases hs : s ∈ slimRoots pm slim
      · rw [if_pos hs] at hk
        injection hk with h
        have hroot := (mem_slimRoots pm slim s).mp hs
        rw [← h]
        exact ⟨hroot.1, s, hroot, SlimPath.refl s hroot.1⟩
      · rw [if_neg hs] at hk
        cases hk
    · intro z hz
      unfold depthInit
      rw [if_pos hz]
      rfl
    · intro x k hk c hc hcs
      left
      unfold depthInit at hk
      by_cases hs : x ∈ slimRoots pm slim
      · exact hs
      · rw [if_neg hs] at hk
        cases hk
    · intro r hr
      unfold depthInit
      rw [if_pos ((mem_slimRoots pm slim r).mpr hr)]
  · have hlen : (slimRoots pm slim).length ≤ slim.card := by
      unfold slimRoots
      calc ((slim.sort (· ≤ ·)).filter _).length ≤ (slim.sort (· ≤ ·)).length :=
            List.length_filter_le _ _
        _ = slim.card := Finset.length_sort _
    have hsum : slim.sum (dslot slim (depthInit pm slim)) ≤ slim.card * (slim.card + 1) := by
      have h1 : ∀ s ∈ slim, dslot slim (depthInit pm slim) s ≤ slim.card + 1 := by
        intro s _
        by_cases hs : s ∈ slimRoots pm slim
        · have he : dslot slim (depthInit pm slim) s = 0 := by
            unfold dslot depthInit
            rw [if_pos hs]
          omega
        · have he : dslot slim (depthInit pm slim) s = slim.card + 1 := by
            unfold dslot depthInit
            rw [if_neg hs]
          omega
      calc slim.sum (dslot slim (depthInit pm slim))
          ≤ slim.sum (fun _ => slim.card + 1) := Finset.sum_le_sum h1
        _ = slim.card * (slim.card + 1) := by
            rw [Finset.sum_const, smul_eq_mul]
    unfold dmeasure depthFuel
    have hexp : (slim.card + 1) * (slim.card + 1) = slim.card * (slim.card + 1) + slim.card + 1 := by
      ring
    omega

/-- Minimality: the final depth map assigns to every slim id a value no
larger than any slim-restricted root distance. -/
lemma depthMap_min (pm : PMap) (slim : Finset String)
    (hkeys : (pm.map Prod.fst).Nodup) (hacyc : SlimAcyclic pm slim) :
    ∀ {s r k}, isRootP pm slim r → SlimPath pm slim s r k →
      ∃ j, j ≤ k ∧ depthMap pm slim s = some j := by
  have hinv := depthMap_invFinal pm slim hkeys hacyc
  intro s r k hr hpath
  induction hpath with
  | refl a ha =>
    by_cases hra : isRootP pm slim a
    · exact ⟨0, Nat.zero_le _, hinv.roots0 a hra⟩
    · exact absurd hr hra
  | @step a p b k ha hp hps h ih =>
    obtain ⟨j, hj, hDp⟩ := ih hr
    have hchild : a ∈ childrenOf pm p := (childrenOf_pget pm hkeys p a).mpr hp
    rcases hinv.stable p j hDp a hchild ha with hmem | ⟨j', hj', hDa⟩
    · exact absurd hmem (List.not_mem_nil p)
    · exact ⟨j', by omega, hDa⟩

/-- Final characterization of the computed depth: roots get 0, and every
other slim id gets the least slim-restricted distance to a root. -/
lemma depthMap_characterization (pm : PMap) (slim : Finset String)
    (hkeys : (pm.map Prod.fst).Nodup) (hacyc : SlimAcyclic pm slim) :
    ∀ s ∈ slim,
      ((∀ p ∈ pget pm s, p ∉ slim) → (depthMap pm slim s).getD 0 = 0)
      ∧ ((∃ p ∈ pget pm s, p ∈ slim) →
          IsLeast (rootDistSet pm slim s) ((depthMap pm slim s).getD 0)) := by
  intro s hs
  have hinv := depthMap_invFinal pm slim hkeys hacyc
  constructor
  · intro hroot
    rw [hinv.roots0 s ⟨hs, hroot⟩]
    rfl
  · intro _
    obtain ⟨k, r, hr, hpath⟩ := exists_root_path pm slim hacyc s hs
    obtain ⟨j, _, hDs⟩ := depthMap_min pm slim hkeys hacyc hr hpath
    rw [hDs]
    constructor
    · obtain ⟨_, r', hr', hpath'⟩ := hinv.sound s j hDs
      exact ⟨r', hr', hpath'⟩
    · intro k' hk'
      obtain ⟨r2, hr2, hpath2⟩ := hk'
      obtain ⟨j', hj', hDs'⟩ := depthMap_min pm slim hkeys hacyc hr2 hpath2
      rw [hDs] at hDs'
      injection hDs' with he
      show j ≤ k'
      omega

lemma sortKeyLe_total (D : String → Option Nat) :
    ∀ a b, sortKeyLe D a b ∨ sortKeyLe D b a := by
  intro a b
  unfold sortKeyLe
  rcases lt_trichotomy ((D a).getD 0) ((D b).getD 0) with h | h | h
  · exact Or.inl (Or.inl h)
  · rcases le_total a b with hab | hab
    · exact Or.inl (Or.inr ⟨h, hab⟩)
    · exact Or.inr (Or.inr ⟨h.symm, hab⟩)
  · exact Or.inr (Or.inl h)

lemma sortKeyLe_trans (D : String → Option Nat) :
    ∀ a b c, sortKeyLe D a b → sortKeyLe D b c → sortKeyLe D a c := by
  intro a b c hab hbc
  unfold sortKeyLe at hab hbc ⊢
  rcases hab with h1 | ⟨h1, h1s⟩ <;> rcases hbc with h2 | ⟨h2, h2s⟩
  · exact Or.inl (h1.trans h2)
  · exact Or.inl (h2 ▸ h1)
  · exact Or.inl (h1 ▸ h2)
  · exact Or.inr ⟨h1.trans h2, h1s.trans h2s⟩

lemma countOrder_perm (pm : PMap) (slim : Finset String) :
    (countOrder pm slim).Perm (slim.sort (· ≤ ·)) :=
  List.perm_insertionSort _ _

lemma countOrder_sorted (pm : PMap) (slim : Finset String) :
    (countOrder pm slim).Sorted (sortKeyLe (depthMap pm slim)) := by
  unfold countOrder
  haveI h1 : IsTotal String (sortKeyLe (depthMap pm slim)) := ⟨sortKeyLe_total _⟩
  haveI h2 : IsTrans String (sortKeyLe (depthMap pm slim)) := ⟨sortKeyLe_trans _⟩
  exact List.sorted_insertionSort _ _

lemma countIds_eq (pm : PMap) (slim : Finset String) (terms : Terms)
    (hterms : ∀ s ∈ slim, (tget terms s).isSome) :
    countIds pm slim terms = countOrder pm slim := by
  unfold countIds
  apply List.filter_eq_self.mpr
  intro s hsord
  have hmem : s ∈ slim := by
    have h1 := (countOrder_perm pm slim).mem_iff.mp hsord
    exact (Finset.mem_sort _).mp h1
  exact hterms s hmem

lemma filterMap_tget_eq_map (terms : Terms) (g : String → GOTerm → String) :
    ∀ (l : List String), (∀ s ∈ l, (tget terms s).isSome) →
      (l.filterMap (fun s =>
        match tget terms s with
        | none => none
        | some t => some (g s t)))
      = l.map (fun s => g s ((tget terms s).getD { id := "" })) := by
  intro l
  induction l with
  | nil => intro _; rfl
  | cons s t ih =>
    intro h
    obtain ⟨tm, htm⟩ := Option.isSome_iff_exists.mp (h s (List.mem_cons_self s t))
    simp only [List.filterMap_cons, List.map_cons, htm, Option.getD_some]
    rw [ih (fun z hz => h z (List.mem_cons_of_mem s hz))]

lemma countModeOutput_eq_map (pm : PMap) (slim : Finset String) (terms : Terms)
    (lh ah : String → Finset String) (tab : Bool)
    (hterms : ∀ s ∈ slim, (tget terms s).isSome) :
    countModeOutput pm slim terms lh ah tab =
      (countIds pm slim terms).map
        (fun s => renderCountLine tab (depthMap pm slim) lh ah s
          ((tget terms s).getD { id := "" })) := by
  rw [countIds_eq pm slim terms hterms]
  unfold countModeOutput
  apply filterMap_tget_eq_map
  intro s hsord
  have hmem : s ∈ slim := by
    have h1 := (countOrder_perm pm slim).mem_iff.mp hsord
    exact (Finset.mem_sort _).mp h1
  exact hterms s hmem

end MapTwoSlim

namespace MapTwoSlim

/-- C1: the claim states that `nearest_slim_ancestors` returns the same
`(direct, all)` pair as a single full upward closure per query, so that `all`
is the complete set of slim ids reachable upward at any depth.  The code
violates this: on the chain T → A → R with slim = {A, R}, the bounded walk
records A and stops ascending (slim nodes are never enqueued), returning
`all = {A}`, while the full upward closure of T meets the slim set in
{A, R}. -/
theorem c1_all_not_full_closure :
    nearest_slim_ancestors "T" ({"A", "R"} : Finset String)
        [("T", ["A"]), ("A", ["R"])] [] "" = ({"A"}, {"A"})
    ∧ specAllSlimAncestors "T" ({"A", "R"} : Finset String)
        [("T", ["A"]), ("A", ["R"])] = ({"A", "R"} : Finset String)
    ∧ ({"A"} : Finset String) ≠ ({"A", "R"} : Finset String) := by
  refine ⟨by decide, by decide, by decide⟩

/-- C10: the result of `nearest_slim_ancestors` depends only on the start id,
the slim set and the parent map; the `namespace_of` and `aspect_ns` arguments
never influence it (the upward walk is never restricted by namespace). -/
theorem c10_namespace_irrelevant (start : String) (slim : Finset String) (pm : PMap)
    (ns1 ns2 : List (String × String)) (a1 a2 : String) :
    nearest_slim_ancestors start slim pm ns1 a1 = nearest_slim_ancestors start slim pm ns2 a2 :=
  rfl

/-- C2: whenever the minimal-depth slim candidates computed by the bounded
walk include two distinct ids A and B with A a transitive upward ancestor of
B over the parent map, the returned `direct` set excludes A (the more
specific B is kept), and the pruning never changes the returned `all` set
(which stays exactly the set recorded during the walk). -/
theorem c2_subsumption_pruning (start : String) (slim : Finset String) (pm : PMap)
    (ns : List (String × String)) (asp : String) (A B : String)
    (h0 : start ∉ slim)
    (hA : A ∈ (nsaBfs start slim pm).cand) (hB : B ∈ (nsaBfs start slim pm).cand)
    (hne : A ≠ B) (hanc : Reaches pm B A) :
    A ∉ (nearest_slim_ancestors start slim pm ns asp).1
    ∧ (nearest_slim_ancestors start slim pm ns asp).2 = (nsaBfs start slim pm).allA := by
  have hcard : 1 < (nsaBfs start slim pm).cand.card :=
    Finset.one_lt_card.mpr ⟨A, hA, B, hB, hne⟩
  have hup : A ∈ upClosureFrom pm B := upClosureFrom_complete pm B A hanc hne
  have hsub : (nsaBfs start slim pm).cand ⊆ (nsaBfs start slim pm).allA :=
    bfsRun_cand_sub slim pm (nsaFuel pm) (nsaInit start) (by simp [nsaInit])
  have hallne : ¬ (nsaBfs start slim pm).allA = ∅ := by
    intro h
    exact absurd (h ▸ hsub hA) (Finset.not_mem_empty A)
  unfold nearest_slim_ancestors
  rw [if_neg h0]
  constructor
  · show A ∉ (if 1 < (nsaBfs start slim pm).cand.card then
        pruneKeep pm (nsaBfs start slim pm).cand else (nsaBfs start slim pm).cand)
    rw [if_pos hcard]
    intro hmem
    rcases Finset.mem_filter.mp hmem with ⟨_, hnot⟩
    exact hnot ⟨B, hB, fun h => hne h.symm, hup⟩
  · show (if (nsaBfs start slim pm).allA = ∅ then fbRun pm slim start
        else (nsaBfs start slim pm).allA) = (nsaBfs start slim pm).allA
    rw [if_neg hallne]

/-- Witness for C2 at a concrete input: start T with parents A and B at
depth 1 (both slim), and A a parent of B, so A is pruned from `direct`. -/
theorem c2_witness :
    ("T" ∉ ({"A", "B"} : Finset String))
    ∧ "A" ∉ (nearest_slim_ancestors "T" {"A", "B"} [("T", ["A", "B"]), ("B", ["A"])] [] "").1
    ∧ (nearest_slim_ancestors "T" {"A", "B"} [("T", ["A", "B"]), ("B", ["A"])] [] "").2
        = (nsaBfs "T" {"A", "B"} [("T", ["A", "B"]), ("B", ["A"])]).allA :=
  ⟨by decide,
    (c2_subsumption_pruning "T" {"A", "B"} [("T", ["A", "B"]), ("B", ["A"])] [] "" "A" "B"
      (by decide) (by decide) (by decide) (by decide)
      (Relation.TransGen.single
        (show "A" ∈ pget [("T", ["A", "B"]), ("B", ["A"])] "B" from by decide))).1,
    (c2_subsumption_pruning "T" {"A", "B"} [("T", ["A", "B"]), ("B", ["A"])] [] "" "A" "B"
      (by decide) (by decide) (by decide) (by decide)
      (Relation.TransGen.single
        (show "A" ∈ pget [("T", ["A", "B"]), ("B", ["A"])] "B" from by decide))).2⟩

/-- C4: for every start term that is not itself in the slim set and from
which no member of the slim set is reachable upward over the parent map,
`nearest_slim_ancestors` returns a pair of two empty sets; the embedding is
a total function, so this is a normal return, not an error. -/
theorem c4_unreachable_returns_empty (start : String) (slim : Finset String) (pm : PMap)
    (ns : List (String × String)) (asp : String)
    (h1 : start ∉ slim) (h2 : ∀ s ∈ slim, ¬ Reaches pm start s) :
    nearest_slim_ancestors start slim pm ns asp = (∅, ∅) :=
  nsa_unreachable_empty start slim pm ns asp h1 (fun s hr hs => h2 s hs hr)

/-- Witness for C4 at a concrete input: an empty slim set and the parent
chain T → A. -/
theorem c4_witness :
    ("T" ∉ (∅ : Finset String))
    ∧ nearest_slim_ancestors "T" (∅ : Finset String) [("T", ["A"])] [] "" = (∅, ∅) :=
  ⟨by decide,
    c4_unreachable_returns_empty "T" ∅ [("T", ["A"])] [] "" (by decide)
      (fun s hs => absurd hs (Finset.not_mem_empty s))⟩

/-- C5: a primary-shape (GAF) row whose column 3 equals "not"
case-insensitively after trimming produces no map-mode output row and no
addition to either aggregate counter: the whole processing state is
unchanged. -/
theorem c5_not_row_no_effect (terms : Terms) (slim : Finset String) (pm : PMap)
    (cfg : AssocCfg) (st : AssocState) (line : String)
    (hgff : cfg.gff = false)
    (hnot : pyLower (pyStrip (colD (rowCols line) 3)) = "not") :
    processLine terms slim pm cfg st line = st := by
  unfold processLine
  by_cases hc : is_comment line = true
  · rw [if_pos hc]
  · rw [if_neg hc]
    have hex : extractRow terms cfg.gff (rowCols line) =
        some (colD (rowCols line) 4, colD (rowCols line) 1, colD (rowCols line) 3) := by
      rw [hgff]; rfl
    rw [hex]
    dsimp only
    rw [hgff]
    have hne : ¬ colD (rowCols line) 3 = "" := by
      intro h0
      rw [h0] at hnot
      exact absurd hnot (by decide)
    have htru : (!(colD (rowCols line) 3 == "")
        && pyLower (pyStrip (colD (rowCols line) 3)) == "not") = true := by
      simp [hne, hnot]
    rw [if_pos htru]

/-- Witness for C5 at a concrete input: a GAF row whose column 3 is "NOT". -/
theorem c5_witness :
    pyLower (pyStrip (colD (rowCols "g\tP1\tx\tNOT\tGO:0000001") 3)) = "not"
    ∧ processLine [] ∅ [] ⟨none, false, false, false⟩ initAssocState
        "g\tP1\tx\tNOT\tGO:0000001" = initAssocState :=
  ⟨by decide,
    c5_not_row_no_effect [] ∅ [] ⟨none, false, false, false⟩ initAssocState
      "g\tP1\tx\tNOT\tGO:0000001" rfl (by decide)⟩

/-- C7: with an aspect filter configured (one of F, P, C), a primary-shape
row whose column 8 does not case-insensitively equal the filter value (after
trimming) leaves the processing state unchanged — no map-mode output row, no
counter update; and alternate-shape (GFF) rows are never subject to aspect
filtering: with `gff` set, the processing result is independent of the
configured aspect. -/
theorem c7_aspect_filter :
    (∀ (terms : Terms) (slim : Finset String) (pm : PMap) (cfg : AssocCfg)
       (st : AssocState) (line : String) (a : String),
      cfg.gff = false → cfg.aspect = some a → a ∈ (["F", "P", "C"] : List String) →
      ¬ pyUpper (pyStrip (colD (rowCols line) 8)) = a →
      processLine terms slim pm cfg st line = st)
    ∧ (∀ (terms : Terms) (slim : Finset String) (pm : PMap) (cfg : AssocCfg)
       (st : AssocState) (line : String) (a1 a2 : Option String),
      cfg.gff = true →
      processLine terms slim pm { cfg with aspect := a1 } st line =
        processLine terms slim pm { cfg with aspect := a2 } st line) := by
  constructor
  · intro terms slim pm cfg st line a hgff hasp hmem hne8
    unfold processLine
    by_cases hc : is_comment line = true
    · rw [if_pos hc]
    · rw [if_neg hc]
      have hex : extractRow terms cfg.gff (rowCols line) =
          some (colD (rowCols line) 4, colD (rowCols line) 1, colD (rowCols line) 3) := by
        rw [hgff]; rfl
      rw [hex, hasp, hgff]
      dsimp only
      by_cases h1 : (!(colD (rowCols line) 3 == "")
          && pyLower (pyStrip (colD (rowCols line) 3)) == "not") = true
      · rw [if_pos h1]
      · rw [if_neg h1]
        have ha : ¬ a = "" := by
          intro h0
          rw [h0] at hmem
          simp at hmem
        have htru : (aspectTruthy (some a) && !false
            && !(pyUpper (pyStrip (colD (rowCols line) 8)) == (some a).getD "")) = true := by
          simp [aspectTruthy, ha, hne8]
        rw [if_pos htru]
  · intro terms slim pm cfg st line a1 a2 hgff
    cases cfg with
    | mk asp gff cm tab =>
      have hg : gff = true := hgff
      subst hg
      unfold processLine
      by_cases hc : is_comment line = true
      · rw [if_pos hc, if_pos hc]
      · rw [if_neg hc, if_neg hc]
        dsimp only
        cases extractRow terms true (rowCols line) with
        | none => rfl
        | some v =>
          obtain ⟨acc, prod, is_not⟩ := v
          dsimp only
          by_cases h1 : (!(is_not == "") && pyLower (pyStrip is_not) == "not") = true
          · rw [if_pos h1, if_pos h1]
          · rw [if_neg h1, if_neg h1]
            simp only [Bool.not_true, Bool.and_false, Bool.false_and]
            rw [if_neg (by simp), if_neg (by simp)]
            exact processRest_aspect terms slim pm a1 a2 true cm tab (rowCols line) acc prod st

/-- Witness for C7 at concrete inputs: a GAF row with aspect F under filter
P is dropped without any state change, and a GFF-mode line is processed
identically under two different aspects. -/
theorem c7_witness :
    (¬ pyUpper (pyStrip (colD (rowCols "g\tP1\tx\t\tGO:0000001\t\t\t\tF") 8)) = "P")
    ∧ processLine [] ∅ [] ⟨some "P", false, false, false⟩ initAssocState
        "g\tP1\tx\t\tGO:0000001\t\t\t\tF" = initAssocState
    ∧ processLine [] ∅ [] ⟨some "F", true, false, false⟩ initAssocState "a\tb\tc"
        = processLine [] ∅ [] ⟨none, true, false, false⟩ initAssocState "a\tb\tc" :=
  ⟨by decide,
    c7_aspect_filter.1 [] ∅ [] ⟨some "P", false, false, false⟩ initAssocState
      "g\tP1\tx\t\tGO:0000001\t\t\t\tF" "P" rfl rfl (by decide) (by decide),
    c7_aspect_filter.2 [] ∅ [] ⟨none, true, false, false⟩ initAssocState "a\tb\tc"
      (some "F") none rfl⟩

/-- C8: the association mapper is deterministic — two runs on equal
ontology/slim/parent-map/options/input data produce equal (hence
byte-identical) output, in map mode and count mode alike. -/
theorem c8_deterministic (t1 t2 : Terms) (s1 s2 : Finset String) (p1 p2 : PMap)
    (c1 c2 : AssocCfg) (l1 l2 : List String)
    (ht : t1 = t2) (hs : s1 = s2) (hp : p1 = p2) (hc : c1 = c2) (hl : l1 = l2) :
    process_assocs t1 s1 p1 c1 l1 = process_assocs t2 s2 p2 c2 l2 := by
  subst ht; subst hs; subst hp; subst hc; subst hl; rfl

/-- Witness for C8 at a concrete input (count mode and map mode configs). -/
theorem c8_witness :
    ([("GO:0000001", ({ id := "GO:0000001" } : GOTerm))] : Terms)
        = [("GO:0000001", ({ id := "GO:0000001" } : GOTerm))]
    ∧ process_assocs [] ∅ [] ⟨none, false, true, false⟩ ["!c"] =
        process_assocs [] ∅ [] ⟨none, false, true, false⟩ ["!c"]
    ∧ process_assocs [] ∅ [] ⟨none, false, false, false⟩ ["!c"] =
        process_assocs [] ∅ [] ⟨none, false, false, false⟩ ["!c"] :=
  ⟨rfl,
    c8_deterministic [] [] ∅ ∅ [] [] ⟨none, false, true, false⟩ ⟨none, false, true, false⟩
      ["!c"] ["!c"] rfl rfl rfl rfl rfl,
    c8_deterministic [] [] ∅ ∅ [] [] ⟨none, false, false, false⟩ ⟨none, false, false, false⟩
      ["!c"] ["!c"] rfl rfl rfl rfl rfl⟩

/-- C9: every pair returned by `nearest_slim_ancestors` satisfies
direct ⊆ all, and consequently, after streaming any input, each slim id's
leaf-count set is contained in its all-count set, so the leaf count rendered
in count mode never exceeds the all count. -/
theorem c9_direct_sub_all_counts :
    (∀ (start : String) (slim : Finset String) (pm : PMap)
       (ns : List (String × String)) (asp : String),
      (nearest_slim_ancestors start slim pm ns asp).1 ⊆
        (nearest_slim_ancestors start slim pm ns asp).2)
    ∧ (∀ (terms : Terms) (slim : Finset String) (pm : PMap) (cfg : AssocCfg)
       (lines : List String) (s : String),
      ((runAssocLines terms slim pm cfg lines).leafh s).card ≤
        ((runAssocLines terms slim pm cfg lines).allh s).card) :=
  ⟨nsa_direct_sub_all,
    fun terms slim pm cfg lines s =>
      Finset.card_le_card (runAssocLines_leaf_sub terms slim pm cfg lines s)⟩

/-- C6: count-mode output contains exactly one line for every slim id
(rendered even when both counts are zero), in ascending `(depth, id)` order,
where a slim id with no slim parent has depth 0 and every other slim id's
depth is the least length of a slim-restricted upward path to such a root.
Hypotheses: every slim id exists in the graph (the slim loader guarantees
this), the parent dict has unique keys, and the slim-restricted graph is
acyclic (the spec declares cycles undefined behaviour). -/
theorem c6_count_output (pm : PMap) (slim : Finset String) (terms : Terms)
    (lh ah : String → Finset String) (tab : Bool)
    (hterms : ∀ s ∈ slim, (tget terms s).isSome)
    (hkeys : (pm.map Prod.fst).Nodup)
    (hacyc : SlimAcyclic pm slim) :
    (countModeOutput pm slim terms lh ah tab =
      (countIds pm slim terms).map
        (fun s => renderCountLine tab (depthMap pm slim) lh ah s
          ((tget terms s).getD { id := "" })))
    ∧ (countIds pm slim terms).Perm (slim.sort (· ≤ ·))
    ∧ (countIds pm slim terms).Sorted (sortKeyLe (depthMap pm slim))
    ∧ (∀ s ∈ slim,
        ((∀ p ∈ pget pm s, p ∉ slim) → (depthMap pm slim s).getD 0 = 0)
        ∧ ((∃ p ∈ pget pm s, p ∈ slim) →
            IsLeast (rootDistSet pm slim s) ((depthMap pm slim s).getD 0))) := by
  refine ⟨countModeOutput_eq_map pm slim terms lh ah tab hterms, ?_, ?_,
    depthMap_characterization pm slim hkeys hacyc⟩
  · rw [countIds_eq pm slim terms hterms]
    exact countOrder_perm pm slim
  · rw [countIds_eq pm slim terms hterms]
    exact countOrder_sorted pm slim

/-- Witness for C6 at a concrete input: slim = {A, B} with B a slim child
of A; every hypothesis is discharged by computation. -/
theorem c6_witness :
    (∀ s ∈ ({"A", "B"} : Finset String),
      (tget [("A", ({ id := "A" } : GOTerm)), ("B", { id := "B" })] s).isSome)
    ∧ SlimAcyclic [("B", ["A"])] {"A", "B"}
    ∧ (countIds [("B", ["A"])] {"A", "B"}
        [("A", ({ id := "A" } : GOTerm)), ("B", { id := "B" })]).Perm
        (({"A", "B"} : Finset String).sort (· ≤ ·))
    ∧ (countIds [("B", ["A"])] {"A", "B"}
        [("A", ({ id := "A" } : GOTerm)), ("B", { id := "B" })]).Sorted
        (sortKeyLe (depthMap [("B", ["A"])] {"A", "B"})) :=
  ⟨by decide, by decide,
    (c6_count_output [("B", ["A"])] {"A", "B"}
      [("A", { id := "A" }), ("B", { id := "B" })] (fun _ => ∅) (fun _ => ∅) false
      (by decide) (by decide) (by decide)).2.1,
    (c6_count_output [("B", ["A"])] {"A", "B"}
      [("A", { id := "A" }), ("B", { id := "B" })] (fun _ => ∅) (fun _ => ∅) false
      (by decide) (by decide) (by decide)).2.2.1⟩

/-- C3: the claim states that no input line of a flat (id-list) slim file —
including one with a lowercase `go:`-prefixed token — makes the loader raise
an error.  The code violates this: on the line "go:0008150" the permissive
regular expression matches case-insensitively, but the following
case-sensitive `gid.split("GO:")[1]` finds no separator and raises an
`IndexError`, whatever the alt-id map and the term graph contain. -/
theorem c3_lowercase_go_line_raises (a2p : List (String × String)) (terms : Terms) :
    processSlimLine a2p terms "go:0008150" = Except.error ()
    ∧ load_slim_list a2p terms ["go:0008150"] = Except.error () := by
  constructor <;> rfl

end MapTwoSlim
